import Mathlib

/-!
Verification development for the AICODER repository
(`create_configuration.py` and `project_setup.py`).

Python strings are modelled as Lean `String` / `List Char`; JSON/YAML
documents as the inductive `JVal`; fallible operations (which call the
process-terminating `fail` helper or raise) return `Option`.
-/

namespace AICoder

/-! ## Python string primitives -/

/-- The whitespace characters stripped by Python `str.strip()` (ASCII range). -/
def isPySpace (c : Char) : Bool :=
  c = ' ' || c = '\t' || c = '\n' || c = '\r' || c = '\x0b' || c = '\x0c'

/-- Drop matching characters from the end of a list. -/
def dropWhileEnd (p : Char → Bool) (l : List Char) : List Char :=
  (l.reverse.dropWhile p).reverse

/-- Drop matching characters from both ends, as Python `str.strip(chars)`. -/
def stripWhile (p : Char → Bool) (l : List Char) : List Char :=
  dropWhileEnd p (l.dropWhile p)

/-- Python `value.strip()` on a character list. -/
def pyStripL (l : List Char) : List Char := stripWhile isPySpace l

/-- Python `value.strip()`. -/
def pyStrip (s : String) : String := ⟨pyStripL s.data⟩

/-- Python `value.strip("/")` on a character list. -/
def stripSlashesL (l : List Char) : List Char := stripWhile (fun c => c = '/') l

/-- Python `value.replace("\\", "/")` acting on one character. -/
def bslashToSlash (c : Char) : Char := if c = '\\' then '/' else c

/-- Helper for `splitOnChar`; accumulates the current segment reversed. -/
def splitOnCharAux (sep : Char) : List Char → List Char → List (List Char)
  | [], acc => [acc.reverse]
  | c :: rest, acc =>
      if c = sep then acc.reverse :: splitOnCharAux sep rest []
      else splitOnCharAux sep rest (c :: acc)

/-- Python `value.split(sep)` for a one-character separator. -/
def splitOnChar (sep : Char) (l : List Char) : List (List Char) :=
  splitOnCharAux sep l []

/-- Python `value.lower()` (ASCII). -/
def pyLower (s : String) : String := ⟨s.data.map Char.toLower⟩

/-! ## PathSafety: `normalize_relative_path` (create_configuration.py 212-221)

    `value = raw_path.strip().replace("\\", "/").strip("/")`, then fail on
    empty value, a value starting with `/` or `~`, or any `..` segment. -/

/-- `value = raw_path.strip().replace("\\", "/").strip("/")`. -/
def pathValue (raw : String) : List Char :=
  stripSlashesL ((pyStripL raw.data).map bslashToSlash)

def normalize_relative_path (raw : String) : Option String :=
  if pathValue raw = [] then none
  else if (pathValue raw).head? = some '/' || (pathValue raw).head? = some '~' then none
  else if (splitOnChar '/' (pathValue raw)).any (fun part => part = ['.', '.']) then none
  else some ⟨pathValue raw⟩

/-! ## JSON/YAML documents

    Configuration documents and requirement documents are JSON/YAML values.
    Numbers are modelled as integers (no claim involves floats); object keys
    are strings and assumed distinct, as produced by JSON/YAML parsing. -/

inductive JVal where
  | null : JVal
  | bool : Bool → JVal
  | num : Int → JVal
  | str : String → JVal
  | arr : List JVal → JVal
  | obj : List (String × JVal) → JVal

/-- First value bound to key `k` in an object's field list. -/
def dictGet? (kvs : List (String × JVal)) (k : String) : Option JVal :=
  (kvs.find? (fun kv => kv.1 = k)).map Prod.snd

/-- Python `d.get(k, default)` on an object's field list. -/
def jvGetD (kvs : List (String × JVal)) (k : String) (d : JVal) : JVal :=
  match dictGet? kvs k with
  | some v => v
  | none => d

/-- Python `d[k] = v`: replace the value of an existing key in place
    (insertion order kept), otherwise append the new key at the end. -/
def dictSet (kvs : List (String × JVal)) (k : String) (v : JVal) : List (String × JVal) :=
  if (dictGet? kvs k).isSome then
    kvs.map (fun kv => if kv.1 = k then (k, v) else kv)
  else kvs ++ [(k, v)]

/-- `", ".join(...)`. -/
def joinComma (xs : List String) : String := String.intercalate ", " xs

mutual

/-- Python `repr`, as used by `str` on containers (string escaping inside
    `repr` of a string is not modelled; no claim depends on it). -/
def pyRepr : JVal → String
  | .null => "None"
  | .bool b => if b then "True" else "False"
  | .num n => toString n
  | .str s => "\x27" ++ s ++ "\x27"
  | .arr xs => "[" ++ joinComma (pyReprList xs) ++ "]"
  | .obj kvs => "\x7b" ++ joinComma (pyReprObj kvs) ++ "\x7d"

/-- `repr` of each element of a list. -/
def pyReprList : List JVal → List String
  | [] => []
  | v :: rest => pyRepr v :: pyReprList rest

/-- `repr` of each `key: value` pair of a dict. -/
def pyReprObj : List (String × JVal) → List String
  | [] => []
  | (k, v) :: rest => ("\x27" ++ k ++ "\x27: " ++ pyRepr v) :: pyReprObj rest

end

/-- Python `str(value)`. -/
def pyStr : JVal → String
  | .str s => s
  | v => pyRepr v

/-- The numeric value of a Python number, with `bool` a subtype of `int`
    (`False == 0`, `True == 1`). -/
def jNum? : JVal → Option Int
  | .bool b => some (if b then 1 else 0)
  | .num n => some n
  | _ => none

mutual

/-- Python `==` on document values. -/
def pyEq : JVal → JVal → Bool
  | .null, b => match b with | .null => true | _ => false
  | .bool x, b =>
      (match jNum? b with
       | some y => ((if x then 1 else 0) : Int) = y
       | none => false)
  | .num x, b =>
      (match jNum? b with
       | some y => x = y
       | none => false)
  | .str x, b => match b with | .str y => x = y | _ => false
  | .arr xs, b => match b with | .arr ys => pyEqList xs ys | _ => false
  | .obj xs, b =>
      (match b with
       | .obj ys => xs.length == ys.length && pyEqObj xs ys
       | _ => false)

/-- Python `==` on lists: elementwise. -/
def pyEqList : List JVal → List JVal → Bool
  | [], [] => true
  | x :: xs, y :: ys => pyEq x y && pyEqList xs ys
  | _, _ => false

/-- Python `==` on dicts: every key of the left dict is bound in the right
    dict to an equal value (lengths are compared by the caller). -/
def pyEqObj : List (String × JVal) → List (String × JVal) → Bool
  | [], _ => true
  | (k, v) :: rest, ys =>
      (match dictGet? ys k with
       | some w => pyEq v w
       | none => false) && pyEqObj rest ys

end

/-- Python truthiness of a document value. -/
def pyTruthy : JVal → Bool
  | .null => false
  | .bool b => b
  | .num n => n != 0
  | .str s => s ≠ ""
  | .arr xs => !xs.isEmpty
  | .obj kvs => !kvs.isEmpty

/-- Whether a value is hashable in Python (lists and dicts are not; using an
    unhashable value as a set element or dict key raises `TypeError`). -/
def pyHashable : JVal → Bool
  | .arr _ => false
  | .obj _ => false
  | _ => true

/-- Python `x in someSet` for a set held as the list of inserted values. -/
def pySetMem (seen : List JVal) (v : JVal) : Bool := seen.any (fun y => pyEq y v)

/-- Python `s or d` for strings. -/
def orDefault (s d : String) : String := if s = "" then d else s

/-! ## ConfigurationValidator (create_configuration.py 205-362) -/

/-- `value.replace("-", "_").replace(" ", "_")` on one character. -/
def dashSpaceToUnderscore (c : Char) : Char := if c = '-' || c = ' ' then '_' else c

/-- A character kept by `re.sub(r"[^a-z0-9_]", "", value)`. -/
def isIdChar (c : Char) : Bool :=
  ('a' ≤ c && c ≤ 'z') || ('0' ≤ c && c ≤ '9') || c = '_'

/-- `re.sub(r"_+", "_", value)`: collapse each run of underscores to one
    (of two adjacent underscores, the first is dropped). -/
def collapseUnderscores : List Char → List Char
  | [] => []
  | [c] => [c]
  | c :: d :: rest =>
      if c = '_' && d = '_' then collapseUnderscores (d :: rest)
      else c :: collapseUnderscores (d :: rest)

/-- `normalize_config_id` (create_configuration.py 205-209). -/
def normalize_config_id (raw : String) : String :=
  let v1 := (pyStripL raw.data).map (fun c => dashSpaceToUnderscore c.toLower)
  ⟨stripWhile (fun c => c = '_') (collapseUnderscores (v1.filter isIdChar))⟩

/-- A character matched by `[a-zA-Z0-9_]` in `PLACEHOLDER_PATTERN`. -/
def isWordChar (c : Char) : Bool :=
  ('a' ≤ c && c ≤ 'z') || ('A' ≤ c && c ≤ 'Z') || ('0' ≤ c && c ≤ '9') || c = '_'

/-- `PLACEHOLDER_PATTERN.findall(value)`: non-overlapping, left-to-right
    matches of `\x7b[a-zA-Z0-9_]+\x7d`, returning the captured names. -/
def findPlaceholders : List Char → List String
  | [] => []
  | c :: rest =>
      if c = '\x7b' then
        let name := rest.takeWhile isWordChar
        let tail := rest.drop name.length
        if name ≠ [] && tail.head? = some '\x7d' then
          (⟨name⟩ : String) :: findPlaceholders tail.tail
        else findPlaceholders rest
      else findPlaceholders rest
termination_by l => l.length
decreasing_by
  · refine Nat.lt_succ_of_le ?_
    calc (rest.drop (rest.takeWhile isWordChar).length).tail.length
        ≤ (rest.drop (rest.takeWhile isWordChar).length).length :=
          List.Sublist.length_le (List.tail_sublist _)
      _ ≤ rest.length := List.Sublist.length_le (List.drop_sublist _ _)
  · exact Nat.lt_succ_self _
  · exact Nat.lt_succ_self _

def ALLOWED_PLACEHOLDERS : List String := ["lang", "lang_folder", "project_name"]

/-- `validate_placeholders` (create_configuration.py 224-230): `true` iff
    every placeholder found in the value is whitelisted (`fail` otherwise). -/
def validate_placeholders (value : String) : Bool :=
  (findPlaceholders value.data).all (fun ph => ALLOWED_PLACEHOLDERS.contains ph)

/-- Loop body of `normalize_folders`: normalize every folder string, keeping
    the first occurrence of each normalized path (order preserved). -/
def normFoldersAux : List JVal → List String → Option (List String)
  | [], acc => some acc.reverse
  | item :: rest, acc =>
      match item with
      | .str s =>
          (match normalize_relative_path s with
           | some folder =>
               if acc.contains folder then normFoldersAux rest acc
               else normFoldersAux rest (folder :: acc)
           | none => none)
      | _ => none

/-- `normalize_folders` (create_configuration.py 233-245). -/
def normalize_folders (raw : JVal) : Option (List String) :=
  match raw with
  | .arr items => normFoldersAux items []
  | _ => none

def ALLOWED_POST_PROCESS : List String := ["none", "replace_first_heading_with_project_name"]

/-- `normalize_file_rule` (create_configuration.py 248-287). Returns the new
    six-field rule object built by the source, or `none` where it `fail`s. -/
def normalize_file_rule (raw : JVal) (index : Nat) : Option JVal :=
  match raw with
  | .obj kvs =>
      let rule_id := orDefault (pyStrip (pyStr (jvGetD kvs "id" (.str ""))))
        ("rule_" ++ toString (index + 1))
      (match jvGetD kvs "source" .null, jvGetD kvs "target" .null with
       | .str source0, .str target0 =>
           if pyStrip source0 = "" then none
           else if pyStrip target0 = "" then none
           else
             let source : String := ⟨(pyStripL source0.data).map bslashToSlash⟩
             let target : String := ⟨(pyStripL target0.data).map bslashToSlash⟩
             if !validate_placeholders source then none
             else if !validate_placeholders target then none
             else
               (match jvGetD kvs "enabled" (.bool true),
                      jvGetD kvs "executable" (.bool false) with
                | .bool enabled, .bool executable =>
                    let post := orDefault
                      (pyStrip (pyStr (jvGetD kvs "post_process" (.str "none")))) "none"
                    if !ALLOWED_POST_PROCESS.contains post then none
                    else some (.obj [("id", .str rule_id), ("source", .str source),
                      ("target", .str target), ("enabled", .bool enabled),
                      ("executable", .bool executable), ("post_process", .str post)])
                | _, _ => none)
       | _, _ => none)
  | _ => none

/-- `rule["id"]` of a normalized file rule. -/
def ruleIdOf (rule : JVal) : String :=
  match rule with
  | .obj kvs =>
      (match dictGet? kvs "id" with
       | some (.str s) => s
       | _ => "")
  | _ => ""

/-- Loop body of `normalize_files`: normalize each rule in order, failing on
    a duplicate rule id. -/
def normFilesAux : List JVal → Nat → List String → List JVal → Option (List JVal)
  | [], _, _, acc => some acc.reverse
  | item :: rest, index, seenIds, acc =>
      match normalize_file_rule item index with
      | some rule =>
          if seenIds.contains (ruleIdOf rule) then none
          else normFilesAux rest (index + 1) (ruleIdOf rule :: seenIds) (rule :: acc)
      | none => none

/-- `normalize_files` (create_configuration.py 290-301). -/
def normalize_files (raw : JVal) : Option (List JVal) :=
  match raw with
  | .arr items => normFilesAux items 0 [] []
  | _ => none

/-- `default_runtime()` (create_configuration.py 153-158). -/
def default_runtime : List (String × JVal) :=
  [("setup_docs_venv", .bool true),
   ("docs_venv_path", .str "Automation/docs_venv"),
   ("docs_packages", .arr [.str "pyyaml", .str "requests"])]

/-- `default_behavior()` (create_configuration.py 161-164). -/
def default_behavior : List (String × JVal) :=
  [("add_gitkeep_to_empty_folders", .bool true)]

/-- All elements of a list as strings, or `none` if one is not a string. -/
def strListOf : List JVal → Option (List String)
  | [] => some []
  | .str s :: rest => (strListOf rest).map (fun ss => s :: ss)
  | _ => none

/-- `normalize_runtime` (create_configuration.py 304-330). -/
def normalize_runtime (raw : JVal) : Option (List (String × JVal)) :=
  match raw with
  | .null => some default_runtime
  | .obj kvs => do
      let n1 ←
        match dictGet? kvs "setup_docs_venv" with
        | none => some default_runtime
        | some (.bool b) => some (dictSet default_runtime "setup_docs_venv" (.bool b))
        | some _ => none
      let n2 ←
        match dictGet? kvs "docs_venv_path" with
        | none => some n1
        | some (.str s) =>
            (normalize_relative_path s).map (fun p => dictSet n1 "docs_venv_path" (.str p))
        | some _ => none
      match dictGet? kvs "docs_packages" with
      | none => some n2
      | some (.arr items) =>
          (strListOf items).map (fun ss =>
            dictSet n2 "docs_packages"
              (.arr (((ss.map pyStrip).filter (fun s => s ≠ "")).map .str)))
      | some _ => none
  | _ => none

/-- `normalize_behavior` (create_configuration.py 333-347). -/
def normalize_behavior (raw : JVal) : Option (List (String × JVal)) :=
  match raw with
  | .null => some default_behavior
  | .obj kvs =>
      (match dictGet? kvs "add_gitkeep_to_empty_folders" with
       | none => some default_behavior
       | some (.bool b) =>
           some (dictSet default_behavior "add_gitkeep_to_empty_folders" (.bool b))
       | some _ => none)
  | _ => none

/-- `normalize_configuration_payload` (create_configuration.py 350-362).
    Starts from a shallow copy of the raw mapping (so unknown keys are
    preserved) and overwrites the canonical fields. -/
def normalize_configuration_payload (raw : JVal) : Option JVal :=
  match raw with
  | .obj kvs0 => do
      let cid := normalize_config_id (pyStrip (pyStr (jvGetD kvs0 "id" (.str ""))))
      if cid = "" then none
      else
        let kvs1 := dictSet kvs0 "id" (.str cid)
        let kvs2 := dictSet kvs1 "name"
          (.str (orDefault (pyStrip (pyStr (jvGetD kvs1 "name" (.str cid)))) cid))
        let kvs3 := dictSet kvs2 "description"
          (.str (pyStrip (pyStr (jvGetD kvs2 "description" (.str "")))))
        let folders ← normalize_folders (jvGetD kvs3 "folders" (.arr []))
        let kvs4 := dictSet kvs3 "folders" (.arr (folders.map .str))
        let files ← normalize_files (jvGetD kvs4 "files" (.arr []))
        let kvs5 := dictSet kvs4 "files" (.arr files)
        let runtime ← normalize_runtime (jvGetD kvs5 "runtime" .null)
        let kvs6 := dictSet kvs5 "runtime" (.obj runtime)
        let behavior ← normalize_behavior (jvGetD kvs6 "behavior" .null)
        some (.obj (dictSet kvs6 "behavior" (.obj behavior)))
  | _ => none

/-! ## ConfigurationRegistry: `load_configurations_from_registry`
    (create_configuration.py 373-401) and the index sort in `main`
    (create_configuration.py 825-831)

    Paths are absolute segment lists; `CONFIGURATIONS_DIR.resolve()` is an
    arbitrary resolved base. The on-disk JSON files are an association list
    from resolved paths to parsed documents. -/

/-- Segments of a path string, split on `/`. -/
def splitSegs (s : String) : List String :=
  (splitOnChar '/' s.data).map (fun l => (⟨l⟩ : String))

/-- Resolution sweep over segments of an absolute path: empty and `.`
    segments vanish, `..` pops (staying at the root), others push.
    The accumulator holds the resolved segments in reverse. -/
def resolveSegsAux : List String → List String → List String
  | acc, [] => acc.reverse
  | acc, seg :: rest =>
      if seg = "" || seg = "." then resolveSegsAux acc rest
      else if seg = ".." then resolveSegsAux (acc.drop 1) rest
      else resolveSegsAux (seg :: acc) rest

/-- `(CONFIGURATIONS_DIR / rel_path).resolve()`: `pathlib` joins (an absolute
    right operand replaces the base), then `resolve` normalizes. -/
def resolvePath (base : List String) (rel : String) : List String :=
  let joined := if rel.data.head? = some '/' then splitSegs rel else base ++ splitSegs rel
  resolveSegsAux [] joined

/-- `str(path)` of an absolute path held as resolved segments. -/
def pathStr (segs : List String) : String :=
  ⟨'/' :: List.intercalate ['/'] (segs.map String.data)⟩

/-- Python `s.startswith(pref)`. -/
def pyStartsWith (s pref : String) : Bool := pref.data.isPrefixOf s.data

/-- The files on disk below the filesystem root: resolved path → document. -/
def fsLookup (fs : List (List String × JVal)) (p : List String) : Option JVal :=
  (fs.find? (fun e => e.1 = p)).map Prod.snd

/-- `v["k"] = w` on an object value. -/
def objSet (v : JVal) (k : String) (w : JVal) : JVal :=
  match v with
  | .obj kvs => .obj (dictSet kvs k w)
  | x => x

/-- `normalized["id"]` of a normalized configuration. -/
def objIdOf (v : JVal) : JVal :=
  match v with
  | .obj kvs => jvGetD kvs "id" .null
  | _ => .null

/-- `str(entry.get("id", "")).strip()` of an index entry. -/
def entryIdStr (kvs : List (String × JVal)) : String :=
  pyStrip (pyStr (jvGetD kvs "id" (.str "")))

/-- `str(entry.get("path", "")).strip()` of an index entry. -/
def entryPathStr (kvs : List (String × JVal)) : String :=
  pyStrip (pyStr (jvGetD kvs "path" (.str "")))

/-- `str(entry.get("scope", "owner")).strip() or "owner"` of an index entry. -/
def entryScopeStr (kvs : List (String × JVal)) : String :=
  orDefault (pyStrip (pyStr (jvGetD kvs "scope" (.str "owner")))) "owner"

/-- One iteration of the entry loop of `load_configurations_from_registry`
    (create_configuration.py 375-400). -/
def loadEntry (base : List String) (fs : List (List String × JVal)) (entry : JVal) :
    Option JVal :=
  match entry with
  | .obj kvs =>
      if entryIdStr kvs = "" || entryPathStr kvs = "" then none
      else if !(entryScopeStr kvs = "owner" || entryScopeStr kvs = "user_generated") then
        none
      else if !pyStartsWith (pathStr (resolvePath base (entryPathStr kvs))) (pathStr base)
      then none
      else
        (fsLookup fs (resolvePath base (entryPathStr kvs))).bind (fun data =>
          (normalize_configuration_payload data).bind (fun normalized =>
            if !pyEq (objIdOf normalized) (.str (entryIdStr kvs)) then none
            else some (objSet (objSet normalized "_scope" (.str (entryScopeStr kvs)))
              "_path" (.str (entryPathStr kvs)))))
  | _ => none

/-- `load_configurations_from_registry` (create_configuration.py 373-401):
    load every index entry in order; any failed entry aborts the whole load. -/
def load_configurations_from_registry (base : List String)
    (fs : List (List String × JVal)) : List JVal → Option (List JVal)
  | [] => some []
  | e :: rest => do
      let c ← loadEntry base fs e
      let cs ← load_configurations_from_registry base fs rest
      some (c :: cs)

/-- Scope rank used by the sort in `main` (create_configuration.py 827-830):
    `0 if str(entry.get("scope", "owner")) == "owner" else 1`. -/
def entryScopeRank (entry : JVal) : Nat :=
  match entry with
  | .obj kvs => if pyStr (jvGetD kvs "scope" (.str "owner")) = "owner" then 0 else 1
  | _ => 1

/-- Second sort key in `main`: `str(entry.get("id", "")).lower()`. -/
def entryIdKey (entry : JVal) : String :=
  match entry with
  | .obj kvs => pyLower (pyStr (jvGetD kvs "id" (.str "")))
  | _ => ""

/-- The ordering induced by the sort key of `main` (scope rank, then
    lower-cased id, lexicographically). -/
def entryKeyLe (a b : JVal) : Prop :=
  toLex (entryScopeRank a, entryIdKey a) ≤ toLex (entryScopeRank b, entryIdKey b)

instance : DecidableRel entryKeyLe := fun a b => by
  unfold entryKeyLe
  infer_instance

instance : IsTotal JVal entryKeyLe :=
  ⟨fun a b => le_total (toLex (entryScopeRank a, entryIdKey a)) _⟩

instance : IsTrans JVal entryKeyLe :=
  ⟨fun _ _ _ h1 h2 => le_trans h1 h2⟩

/-- `sorted(entries, key=...)` in `main` (create_configuration.py 825-831):
    Python `sorted` is stable, so it is modelled by insertion sort, which is
    the unique stable sorting algorithm up to function extensionality. -/
def registrySortEntries (entries : List JVal) : List JVal :=
  List.insertionSort entryKeyLe entries


/-! ## FileGenerationPipeline: `project_setup.py` `main` (1501-1539)

    The generated tree is a set of directories and a set of files, both held
    as segment-list paths relative to the freshly created project root.
    File contents and permission bits are irrelevant to the claims and are
    not modelled; external process spawns (`venv`, `pip`, `git`) only create
    `Automation/docs_venv`. -/

structure GenState where
  dirs : List (List String)
  files : List (List String)

/-- Record a directory if it is not already present. -/
def addDir (dirs : List (List String)) (d : List String) : List (List String) :=
  if d ∈ dirs then dirs else dirs ++ [d]

/-- The nonempty prefixes of a path, shortest first. -/
def prefixesOf (p : List String) : List (List String) :=
  (List.range p.length).map (fun i => p.take (i + 1))

/-- `Path(...).mkdir(parents=True, exist_ok=True)`. -/
def mkdirParents (st : GenState) (p : List String) : GenState :=
  ⟨(prefixesOf p).foldl addDir st.dirs, st.files⟩

/-- Whether some recorded entry is an immediate child of directory `d`. -/
def hasChildIn (entries : List (List String)) (d : List String) : Bool :=
  entries.any (fun e => decide (e.length = d.length + 1 ∧ e.take d.length = d))

/-- `not any(Path(...).iterdir())`: no child directory and no child file. -/
def dirIsEmpty (st : GenState) (d : List String) : Bool :=
  !(hasChildIn st.dirs d || hasChildIn st.files d)

/-- `Path(...).touch()`: create the file if absent. -/
def touchFile (st : GenState) (p : List String) : GenState :=
  if p ∈ st.files then st else ⟨st.dirs, st.files ++ [p]⟩

/-- `Path(...).write_text(...)`: create the file if absent (contents and
    overwrites do not change the recorded tree). -/
def writeFileAt (st : GenState) (p : List String) : GenState := touchFile st p

/-- `pathlib` parsing of a folder string: empty and `.` segments vanish. -/
def pathParts (folder : String) : List String :=
  (splitSegs folder).filter (fun s => !(s == "") && !(s == "."))

/-- The folder list of `create_base_structure` (project_setup.py 80-86). -/
def declaredFolders (components : List String) : List String :=
  [".vscode", "Automation", "Docs", "Docs/requirements", "Docs/architecture"] ++ components

/-- Loop body of `create_base_structure` (project_setup.py 88-93): make the
    folder, then add `.gitkeep` if it is empty at this moment. -/
def processFolder (st : GenState) (folder : String) : GenState :=
  if dirIsEmpty (mkdirParents st (pathParts folder)) (pathParts folder) then
    touchFile (mkdirParents st (pathParts folder)) (pathParts folder ++ [".gitkeep"])
  else mkdirParents st (pathParts folder)

/-- `create_base_structure` (project_setup.py 78-93). -/
def create_base_structure (st : GenState) (components : List String) : GenState :=
  (declaredFolders components).foldl processFolder st

/-- The files written by the `create_*` steps of `main` (project_setup.py
    1518-1526), in call order: `create_vscode_settings`, `create_docs_files`,
    `create_agents_md`, `create_gitignore`, `create_scripts`,
    `create_automation_readme`, `create_readme`,
    `create_docs_builder_script`, `create_env_bootstrap_script`. -/
def mainWrittenFiles : List (List String) :=
  [[".vscode", "settings.json"],
   ["Docs", "requirements", "high_level_requirements.yaml"],
   ["Docs", "requirements", "software_requirements.yaml"],
   ["Docs", "architecture", "runtime_diagram.puml"],
   ["Docs", "architecture", "class_diagram.puml"],
   ["Docs", "architecture", "block_diagram.puml"],
   ["AGENTS.md"],
   [".gitignore"],
   ["setup.sh"],
   ["start.sh"],
   ["Automation", "README.md"],
   ["README.md"],
   ["Automation", "docs_builder.py"],
   ["Automation", "bootstrap_envs.sh"]]

/-- One full generation run of `main` (project_setup.py 1516-1527) inside a
    freshly created project directory: base structure with its `.gitkeep`
    pass first, then all file-creating steps, then `setup_docs_venv`
    (the external `python3 -m venv` creates `Automation/docs_venv`). -/
def runProjectSetup (components : List String) : GenState :=
  let st1 := create_base_structure ⟨[], []⟩ components
  let st2 := mainWrittenFiles.foldl writeFileAt st1
  mkdirParents st2 ["Automation", "docs_venv"]

/-! ## DiagramEncoder: `_plantuml_encode` (project_setup.py 896-918)

    The deflate step is the external `zlib` library; the transcoding below
    is therefore stated over an arbitrary compressed byte stream. -/

def plantumlAlphabet : List Char :=
  "0123456789ABCDEFGHIJKLMNOPQRSTUVWXYZabcdefghijklmnopqrstuvwxyz-_".data

/-- `alphabet[n]` (all indices produced by the encoder are in range). -/
def alphaChar (n : Nat) : Char := plantumlAlphabet.getD n ' '

/-- The 3-bytes-to-4-characters loop of `_plantuml_encode` (project_setup.py
    905-916); absent bytes are read as `0` and suppress their character. -/
def encode64 : List Nat → List Char
  | [] => []
  | [b1] =>
      [alphaChar ((b1 >>> 2) &&& 0x3F),
       alphaChar (((b1 &&& 0x03) <<< 4) ||| ((0 >>> 4) &&& 0x0F))]
  | [b1, b2] =>
      [alphaChar ((b1 >>> 2) &&& 0x3F),
       alphaChar (((b1 &&& 0x03) <<< 4) ||| ((b2 >>> 4) &&& 0x0F)),
       alphaChar (((b2 &&& 0x0F) <<< 2) ||| ((0 >>> 6) &&& 0x03))]
  | b1 :: b2 :: b3 :: rest =>
      [alphaChar ((b1 >>> 2) &&& 0x3F),
       alphaChar (((b1 &&& 0x03) <<< 4) ||| ((b2 >>> 4) &&& 0x0F)),
       alphaChar (((b2 &&& 0x0F) <<< 2) ||| ((b3 >>> 6) &&& 0x03)),
       alphaChar (b3 &&& 0x3F)] ++ encode64 rest

/-- The bit layout the specification describes, written with arithmetic on
    byte values: high 6 bits of byte 1; low 2 bits of byte 1 with high
    4 bits of byte 2; low 4 bits of byte 2 with high 2 bits of byte 3
    (only if byte 2 existed); low 6 bits of byte 3 (only if it existed);
    absent bytes pad with zero bits. -/
def encode64Layout : List Nat → List Char
  | [] => []
  | [b1] => [alphaChar (b1 / 4), alphaChar (b1 % 4 * 16)]
  | [b1, b2] =>
      [alphaChar (b1 / 4), alphaChar (b1 % 4 * 16 + b2 / 16), alphaChar (b2 % 16 * 4)]
  | b1 :: b2 :: b3 :: rest =>
      [alphaChar (b1 / 4), alphaChar (b1 % 4 * 16 + b2 / 16),
       alphaChar (b2 % 16 * 4 + b3 / 64), alphaChar (b3 % 64)] ++ encode64Layout rest

/-! ## RequirementGraphValidator: `validate_requirement_list`
    (docs_builder, project_setup.py 839-873) and the link construction of
    `build_docs` (project_setup.py 1371-1396, 1417-1418) -/

def hlRequiredKeys : List String := ["id", "name", "status", "description"]

def swRequiredKeys : List String := ["id", "name", "status", "refines", "description"]

def requirementStatuses : List String := ["draft", "in progress", "in review", "finished"]

/-- Python `item[k] in (None, "")`. -/
def isNullOrEmptyStr (v : JVal) : Bool :=
  match v with
  | .null => true
  | .str s => s == ""
  | _ => false

/-- `[k for k in required_keys if k not in item or item[k] in (None, "")]`. -/
def entryMissingKeys (required : List String) (kvs : List (String × JVal)) : List String :=
  required.filter (fun k =>
    match dictGet? kvs k with
    | none => true
    | some v => isNullOrEmptyStr v)

/-- The per-item loop of `validate_requirement_list` (project_setup.py
    851-871), carrying `seen_ids`, `cleaned` and the emitted errors
    (both accumulators reversed at the end). `none` models the `TypeError`
    raised by `item_id in seen_ids` on an unhashable id. -/
def validateAux (label : String) (required : List String) :
    List JVal → Nat → List JVal → List JVal → List String →
    Option (List JVal × List String)
  | [], _, _, cleaned, errs => some (cleaned.reverse, errs.reverse)
  | item :: rest, idx, seen, cleaned, errs =>
      match item with
      | .obj kvs =>
          if !(entryMissingKeys required kvs).isEmpty then
            validateAux label required rest (idx + 1) seen cleaned
              ((label ++ "[" ++ toString idx ++ "] missing required fields: " ++
                joinComma (entryMissingKeys required kvs) ++ ".") :: errs)
          else if !pyHashable (jvGetD kvs "id" .null) then none
          else if pySetMem seen (jvGetD kvs "id" .null) then
            validateAux label required rest (idx + 1) seen cleaned
              ((label ++ " duplicate id \x27" ++ pyStr (jvGetD kvs "id" .null) ++
                "\x27.") :: errs)
          else
            validateAux label required rest (idx + 1) (jvGetD kvs "id" .null :: seen)
              (.obj kvs :: cleaned)
              (if pyLower (pyStr (jvGetD kvs "status" (.str ""))) ≠ "" &&
                  !requirementStatuses.contains
                    (pyLower (pyStr (jvGetD kvs "status" (.str "")))) then
                (label ++ " \x27" ++ pyStr (jvGetD kvs "id" .null) ++
                  "\x27 has unknown status \x27" ++
                  pyStr (jvGetD kvs "status" .null) ++ "\x27.") :: errs
              else errs)
      | _ =>
          validateAux label required rest (idx + 1) seen cleaned
            ((label ++ "[" ++ toString idx ++ "] must be a mapping/dict.") :: errs)

/-- `validate_requirement_list` (project_setup.py 839-873): cleaned list and
    the errors recorded through `add_error`. -/
def validate_requirement_list (data : JVal) (label : String) (required : List String) :
    Option (List JVal × List String) :=
  match data with
  | .null => some ([], [])
  | .arr items => validateAux label required items 0 [] [] []
  | _ => some ([], [label ++ " YAML must be a list of items."])

/-- A value of the `links` dict of `build_docs`: a single URL for
    `sw_*` keys, a URL list for `hl_*` keys. -/
inductive LinkVal where
  | one : String → LinkVal
  | many : List String → LinkVal
deriving DecidableEq

/-- `links[k] = v`: Python dict assignment (replace in place or append). -/
def linkSet (links : List (String × LinkVal)) (k : String) (v : LinkVal) :
    List (String × LinkVal) :=
  if (links.find? (fun kv => kv.1 = k)).isSome then
    links.map (fun kv => if kv.1 = k then (k, v) else kv)
  else links ++ [(k, v)]

/-- Keys of `hl_ids = \x7breq['id']: req for req in hl_req_data\x7d`
    (project_setup.py 1377); `none` models `KeyError`/`TypeError`. -/
def hlIdKeys : List JVal → Option (List JVal)
  | [] => some []
  | req :: rest =>
      match req with
      | .obj kvs =>
          (match dictGet? kvs "id" with
           | some i => if !pyHashable i then none else (hlIdKeys rest).map (fun ks => i :: ks)
           | none => none)
      | _ => none

/-- The forward-link loop of `build_docs` (project_setup.py 1379-1384):
    `if refines and refines in hl_ids` adds a forward link, otherwise the
    requirement id is recorded as dangling. -/
def forwardPassAux (hlKeys : List JVal) :
    List JVal → List (String × LinkVal) → List JVal →
    Option (List (String × LinkVal) × List JVal)
  | [], links, dang => some (links, dang.reverse)
  | sw :: rest, links, dang =>
      match sw with
      | .obj kvs =>
          let refines := jvGetD kvs "refines" .null
          if pyTruthy refines then
            if !pyHashable refines then none
            else if pySetMem hlKeys refines then
              (match dictGet? kvs "id" with
               | some i =>
                   forwardPassAux hlKeys rest
                     (linkSet links ("sw_" ++ pyStr i)
                       (.one ("high_level.html#" ++ pyStr refines))) dang
               | none => none)
            else forwardPassAux hlKeys rest links (jvGetD kvs "id" (.str "<unknown>") :: dang)
          else forwardPassAux hlKeys rest links (jvGetD kvs "id" (.str "<unknown>") :: dang)
      | _ => none

/-- `[sw['id'] for sw in sw_req_data if sw.get('refines') == hl_id]`
    (project_setup.py 1389). -/
def backwardRefiners (swList : List JVal) (hlId : JVal) : Option (List JVal) :=
  match swList with
  | [] => some []
  | sw :: rest =>
      match sw with
      | .obj kvs =>
          if pyEq (jvGetD kvs "refines" .null) hlId then
            (dictGet? kvs "id").bind (fun i =>
              (backwardRefiners rest hlId).map (fun is => i :: is))
          else backwardRefiners rest hlId
      | _ => none

/-- The backward-link loop of `build_docs` (project_setup.py 1387-1391). -/
def backwardPass (swList : List JVal) :
    List JVal → List (String × LinkVal) → Option (List (String × LinkVal))
  | [], links => some links
  | hl :: rest, links =>
      match hl with
      | .obj kvs =>
          (dictGet? kvs "id").bind (fun hlId =>
            (backwardRefiners swList hlId).bind (fun refining =>
              if refining.isEmpty then backwardPass swList rest links
              else backwardPass swList rest
                (linkSet links ("hl_" ++ pyStr hlId)
                  (.many (refining.map (fun i => "software.html#" ++ pyStr i))))))
      | _ => none

/-- The whole link construction of `build_docs` (project_setup.py
    1372-1391): forward links and dangling ids, then backward links. -/
def build_links (hlList swList : List JVal) :
    Option (List (String × LinkVal) × List JVal) := do
  let hlKeys ← hlIdKeys hlList
  let (links1, dangling) ← forwardPassAux hlKeys swList [] []
  let links2 ← backwardPass swList hlList links1
  some (links2, dangling)

/-- The aggregate error appended at the end of the run (project_setup.py
    1417-1418): one error listing all dangling ids, none when the list is
    empty; `none` models the `TypeError` of `', '.join` on non-strings. -/
def danglingReport (dangling : List JVal) : Option (List String) :=
  if dangling.isEmpty then some []
  else (strListOf dangling).map (fun ss =>
    ["Dangling software requirements (no matching high-level refines): " ++ joinComma ss])


/-! ## Heap model for the no-in-place-mutation claim

    Python dicts and lists are mutable heap objects. To state that
    `normalize_configuration_payload` never mutates its input document, the
    document graph lives in an explicit store: addresses are indices, new
    objects are appended, and Python's `payload[k] = v` is an in-place
    update of a dict node. Scalars (immutable in Python) are stored inline.
    The helper normalizers (`normalize_folders`, `normalize_files`,
    `normalize_runtime`, `normalize_behavior`) contain no item assignment to
    their argument in the source — they only read it and build fresh
    containers — so they are embedded as the pure functions above plus a
    fresh allocation of their result; `normalize_configuration_payload`
    itself copies the raw mapping and then mutates the copy, which is
    modelled op for op. -/

inductive Node where
  | nnull : Node
  | nbool : Bool → Node
  | nnum : Int → Node
  | nstr : String → Node
  | nlist : List Nat → Node
  | ndict : List (String × Nat) → Node

abbrev Store := List Node

/-- Allocate a node at a fresh address. -/
def allocN (σ : Store) (n : Node) : Store × Nat := (σ ++ [n], σ.length)

/-- The field list of the dict node at `a`, if `a` holds a dict. -/
def readDict (σ : Store) (a : Nat) : Option (List (String × Nat)) :=
  match σ.get? a with
  | some (.ndict kvs) => some kvs
  | _ => none

/-- Address bound to key `k` in a dict node's field list. -/
def dictAddrGet? (kvs : List (String × Nat)) (k : String) : Option Nat :=
  (kvs.find? (fun kv => kv.1 = k)).map Prod.snd

/-- `d[k] = v` on a dict node's field list (replace in place or append). -/
def dictAddrSet (kvs : List (String × Nat)) (k : String) (a : Nat) :
    List (String × Nat) :=
  if (dictAddrGet? kvs k).isSome then
    kvs.map (fun kv => if kv.1 = k then (k, a) else kv)
  else kvs ++ [(k, a)]

/-- `payload[k] = v`: in-place update of the dict node at `p`. -/
def dictWrite (σ : Store) (p : Nat) (k : String) (vaddr : Nat) : Option Store := do
  let kvs ← readDict σ p
  some (σ.set p (.ndict (dictAddrSet kvs k vaddr)))

/-- Read the document value rooted at an address (fuel-bounded; any
    acyclic graph is read completely with fuel `σ.length + 1`). -/
def graphVal (σ : Store) : Nat → Nat → Option JVal
  | 0, _ => none
  | fuel + 1, a =>
      match σ.get? a with
      | some .nnull => some .null
      | some (.nbool b) => some (.bool b)
      | some (.nnum n) => some (.num n)
      | some (.nstr s) => some (.str s)
      | some (.nlist es) => (es.mapM (graphVal σ fuel)).map .arr
      | some (.ndict kvs) =>
          (kvs.mapM (fun kv => (graphVal σ fuel kv.2).map (fun v => (kv.1, v)))).map .obj
      | none => none

/-- The value at an optional address, with a default for an absent key
    (Python `payload.get(k, default)` followed by reading the object). -/
def valAt (σ : Store) (fuel : Nat) (oa : Option Nat) (d : JVal) : Option JVal :=
  match oa with
  | none => some d
  | some a => graphVal σ fuel a

mutual

/-- Allocate a fresh copy of a document value, returning its root address. -/
def allocGraph (σ : Store) : JVal → Store × Nat
  | .null => allocN σ .nnull
  | .bool b => allocN σ (.nbool b)
  | .num n => allocN σ (.nnum n)
  | .str s => allocN σ (.nstr s)
  | .arr xs =>
      let (σ2, as) := allocGraphList σ xs
      allocN σ2 (.nlist as)
  | .obj kvs =>
      let (σ2, fs) := allocGraphObj σ kvs
      allocN σ2 (.ndict fs)

/-- Allocate each element of a list value. -/
def allocGraphList (σ : Store) : List JVal → Store × List Nat
  | [] => (σ, [])
  | v :: rest =>
      let (σ2, a) := allocGraph σ v
      let (σ3, as) := allocGraphList σ2 rest
      (σ3, a :: as)

/-- Allocate each field value of an object value. -/
def allocGraphObj (σ : Store) : List (String × JVal) → Store × List (String × Nat)
  | [] => (σ, [])
  | (k, v) :: rest =>
      let (σ2, a) := allocGraph σ v
      let (σ3, fs) := allocGraphObj σ2 rest
      (σ3, (k, a) :: fs)

end

/-- One `payload[k] = f(payload.get(k, default))` step of
    `normalize_configuration_payload`: read the current field, compute the
    canonical value (pure), allocate it fresh, and write it into the
    payload copy at `p` — the only in-place mutation the source performs. -/
def setPayloadField (σ : Store) (p : Nat) (k : String) (dflt : JVal)
    (compute : JVal → Option JVal) : Option Store := do
  let kvs ← readDict σ p
  let raw ← valAt σ (σ.length + 1) (dictAddrGet? kvs k) dflt
  let v ← compute raw
  let (σ2, av) := allocGraph σ v
  dictWrite σ2 p k av

/-- Store-level `normalize_configuration_payload` (create_configuration.py
    350-362): shallow-copy the raw mapping (`payload = dict(raw_payload)`),
    then overwrite the canonical fields of the copy, field by field, in
    source order. Returns the store and the address of the new payload. -/
def sNormalizePayload (σ0 : Store) (a : Nat) : Option (Store × Nat) := do
  let kvs0 ← readDict σ0 a
  let (σ1, p) := allocN σ0 (.ndict kvs0)
  let σ2 ← setPayloadField σ1 p "id" (.str "")
    (fun raw =>
      let cid := normalize_config_id (pyStrip (pyStr raw))
      if cid = "" then none else some (.str cid))
  let kvsA ← readDict σ2 p
  let idVal ← valAt σ2 (σ2.length + 1) (dictAddrGet? kvsA "id") .null
  let σ3 ← setPayloadField σ2 p "name" idVal
    (fun raw => some (.str (orDefault (pyStrip (pyStr raw)) (pyStr idVal))))
  let σ4 ← setPayloadField σ3 p "description" (.str "")
    (fun raw => some (.str (pyStrip (pyStr raw))))
  let σ5 ← setPayloadField σ4 p "folders" (.arr [])
    (fun raw => (normalize_folders raw).map (fun fs => .arr (fs.map .str)))
  let σ6 ← setPayloadField σ5 p "files" (.arr [])
    (fun raw => (normalize_files raw).map .arr)
  let σ7 ← setPayloadField σ6 p "runtime" .null
    (fun raw => (normalize_runtime raw).map .obj)
  let σ8 ← setPayloadField σ7 p "behavior" .null
    (fun raw => (normalize_behavior raw).map .obj)
  some (σ8, p)


/-! ## Accessors used to state the registry-ordering claim -/

/-- Scope rank of a loaded configuration (owner first), read from the
    `_scope` field that `load_configurations_from_registry` sets. -/
def cfgScopeRank (c : JVal) : Nat :=
  match c with
  | .obj kvs => if pyStr (jvGetD kvs "_scope" (.str "owner")) = "owner" then 0 else 1
  | _ => 1

/-- Case-insensitive display name of a loaded configuration. -/
def cfgNameKey (c : JVal) : String :=
  match c with
  | .obj kvs => pyLower (pyStr (jvGetD kvs "name" (.str "")))
  | _ => ""

/-- The ordering the specification asserts for the loaded configuration
    list: owner-scope entries first, then case-insensitive name. -/
def claimOrderLe (a b : JVal) : Prop :=
  toLex (cfgScopeRank a, cfgNameKey a) ≤ toLex (cfgScopeRank b, cfgNameKey b)

instance : DecidableRel claimOrderLe := fun a b => by
  unfold claimOrderLe
  infer_instance

/-- The `_path` field of a loaded configuration. -/
def cfgPathOf (c : JVal) : String :=
  match c with
  | .obj kvs => pyStr (jvGetD kvs "_path" (.str ""))
  | _ => ""

/-- The `path` field of a registry entry, as `loadEntry` computes it. -/
def entryPathOf (entry : JVal) : String :=
  match entry with
  | .obj kvs => entryPathStr kvs
  | _ => ""


/-! ## Predicates used to state the requirement-validation claims -/

/-- The item list underlying a requirement document (`[]` when the document
    is `None` or not a list, matching `validate_requirement_list`). -/
def reqItems (data : JVal) : List JVal :=
  match data with
  | .arr l => l
  | _ => []

/-- Schema validity of one requirement entry as the validator checks it:
    a mapping whose required fields are all present and neither `None` nor
    the empty string. -/
def entryValid (required : List String) (x : JVal) : Prop :=
  ∃ kvs, x = JVal.obj kvs ∧ entryMissingKeys required kvs = []

/-- All identifiers pairwise distinct under Python `==`. -/
def distinctIds (l : List JVal) : Prop :=
  List.Pairwise (fun a b => pyEq (objIdOf a) (objIdOf b) = false) l

/-- Of several schema-valid entries sharing an identifier, the first one is
    the one kept: every schema-valid entry that no earlier schema-valid
    entry shadows (and whose id is not in the ambient seen set) appears in
    the cleaned output. -/
def firstOccKept (required : List String) (items newPart seen : List JVal) : Prop :=
  ∀ l1 x l2, items = l1 ++ x :: l2 → entryValid required x →
    (∀ y ∈ l1, entryValid required y → pyEq (objIdOf y) (objIdOf x) = false) →
    pySetMem seen (objIdOf x) = false → x ∈ newPart

/-- Induction invariant for `validateAux`: the output extends the reversed
    accumulator by a block drawn from the remaining items. -/
def validateAuxSpec (required : List String) (items seen accC cleaned : List JVal) : Prop :=
  ∃ newPart,
    cleaned = accC.reverse ++ newPart ∧
    List.Sublist newPart items ∧
    (∀ x ∈ newPart, entryValid required x) ∧
    (∀ x ∈ newPart, pySetMem seen (objIdOf x) = false) ∧
    distinctIds newPart ∧
    firstOccKept required items newPart seen


/-- Lookup in the `links` dict of `build_docs`. -/
def linkGet? (links : List (String × LinkVal)) (k : String) : Option LinkVal :=
  (links.find? (fun kv => kv.1 = k)).map Prod.snd

/-- The `links` key a high-level requirement owns (`f"hl_{hl_id}"`). -/
def hlKeyOf (hl : JVal) : String := "hl_" ++ pyStr (objIdOf hl)

/-- The `links` key a software requirement owns (`f"sw_{sw_id}"`). -/
def swKeyOf (sw : JVal) : String := "sw_" ++ pyStr (objIdOf sw)



/-- Concrete high-level requirement for the link examples: `REQ-001`. -/
def c6kvsHl : List (String × JVal) :=
  [("id", .str "REQ-001"), ("name", .str "HL"), ("status", .str "draft"),
   ("description", .str "D")]

/-- Concrete software requirement refining the absent `REQ-999`. -/
def c6kvsSw : List (String × JVal) :=
  [("id", .str "SW-001"), ("name", .str "SW"), ("status", .str "draft"),
   ("refines", .str "REQ-999"), ("description", .str "D")]


/-- Concrete high-level requirement `R` for the symmetry witness. -/
def c7hl : JVal := .obj [("id", .str "R")]

/-- Concrete software requirement `S` refining `R`. -/
def c7sw : JVal := .obj [("id", .str "S"), ("refines", .str "R")]

/-- The link index `build_links` produces for `[c7hl]`, `[c7sw]`. -/
def c7links : List (String × LinkVal) :=
  [("sw_S", .one "high_level.html#R"), ("hl_R", .many ["software.html#S"])]


/-- Addresses a node points to. -/
def nodeAddrs : Node → List Nat
  | .nlist as => as
  | .ndict kvs => kvs.map Prod.snd
  | _ => []

/-- A store is well formed when every stored address is in bounds. -/
def storeWF (σ : Store) : Prop := ∀ n ∈ σ, ∀ a ∈ nodeAddrs n, a < σ.length

/-- The store `sNormalizePayload` produces from the two-node store
    `[nstr "a", ndict [("id", 0)]]` rooted at address 1: the input nodes
    (addresses 0 and 1) survive unchanged, all normalized values live in
    freshly allocated nodes. -/
def c9resultStore : Store :=
  [.nstr "a", .ndict [("id", 0)],
   .ndict [("id", 3), ("name", 4), ("description", 5), ("folders", 6),
           ("files", 7), ("runtime", 13), ("behavior", 15)],
   .nstr "a", .nstr "a", .nstr "",
   .nlist [], .nlist [],
   .nbool true, .nstr "Automation/docs_venv", .nstr "pyyaml", .nstr "requests",
   .nlist [10, 11],
   .ndict [("setup_docs_venv", 8), ("docs_venv_path", 9), ("docs_packages", 12)],
   .nbool true,
   .ndict [("add_gitkeep_to_empty_folders", 14)]]

/-! # Theorems -/

/-! ## Generic lemmas about the string primitives -/

theorem dropWhile_idem (p : Char → Bool) (l : List Char) :
    (l.dropWhile p).dropWhile p = l.dropWhile p := by
  induction l with
  | nil => rfl
  | cons c rest ih =>
      by_cases h : p c
      · simp [List.dropWhile_cons, h, ih]
      · simp [List.dropWhile_cons, h]

theorem dropWhile_head_false (p : Char → Bool) (l : List Char) (c : Char)
    (h : (l.dropWhile p).head? = some c) : p c = false := by
  induction l with
  | nil => simp at h
  | cons d rest ih =>
      by_cases hd : p d
      · rw [List.dropWhile_cons] at h
        simp [hd] at h
        exact ih h
      · rw [List.dropWhile_cons] at h
        simp [hd] at h
        subst h
        simpa using hd

theorem dropWhile_eq_self_of_head (p : Char → Bool) (l : List Char)
    (h : ∀ c, l.head? = some c → p c = false) : l.dropWhile p = l := by
  cases l with
  | nil => rfl
  | cons c rest => simp [List.dropWhile_cons, h c rfl]

theorem dropWhileEnd_idem (p : Char → Bool) (l : List Char) :
    dropWhileEnd p (dropWhileEnd p l) = dropWhileEnd p l := by
  unfold dropWhileEnd
  rw [List.reverse_reverse, dropWhile_idem]

theorem dropWhileEnd_isPrefix (p : Char → Bool) (l : List Char) :
    dropWhileEnd p l <+: l := by
  unfold dropWhileEnd
  have h : l.reverse.dropWhile p <:+ l.reverse := List.dropWhile_suffix p
  have h2 : (l.reverse.dropWhile p).reverse <+: (l.reverse).reverse :=
    List.reverse_prefix.mpr h
  simpa using h2

theorem head?_of_isPrefix {l t : List Char} (h : t <+: l) (hne : t ≠ []) :
    t.head? = l.head? := by
  obtain ⟨s, hs⟩ := h
  cases t with
  | nil => exact absurd rfl hne
  | cons c rest => rw [← hs]; rfl

theorem stripWhile_idem (p : Char → Bool) (l : List Char) :
    stripWhile p (stripWhile p l) = stripWhile p l := by
  unfold stripWhile
  have hA : (dropWhileEnd p (l.dropWhile p)).dropWhile p
      = dropWhileEnd p (l.dropWhile p) := by
    apply dropWhile_eq_self_of_head
    intro c hc
    have hne : dropWhileEnd p (l.dropWhile p) ≠ [] := by
      intro hcon
      rw [hcon] at hc
      simp at hc
    have hh := head?_of_isPrefix (dropWhileEnd_isPrefix p (l.dropWhile p)) hne
    exact dropWhile_head_false p l c (hh ▸ hc)
  rw [hA, dropWhileEnd_idem]

theorem stripWhile_sublist (p : Char → Bool) (l : List Char) :
    List.Sublist (stripWhile p l) l := by
  unfold stripWhile dropWhileEnd
  have h0 : List.Sublist ((l.dropWhile p).reverse.dropWhile p) (l.dropWhile p).reverse :=
    List.dropWhile_sublist _
  have h1 := h0.reverse
  rw [List.reverse_reverse] at h1
  exact h1.trans (List.dropWhile_sublist _)

theorem mem_of_mem_stripWhile (p : Char → Bool) (l : List Char) (c : Char)
    (h : c ∈ stripWhile p l) : c ∈ l :=
  (stripWhile_sublist p l).subset h

theorem map_bslash_eq_self {l : List Char} (h : '\\' ∉ l) :
    l.map bslashToSlash = l := by
  induction l with
  | nil => rfl
  | cons c rest ih =>
      have hc : c ≠ '\\' := fun hc => h (hc ▸ List.mem_cons_self c rest)
      have hr := ih (fun hm => h (List.mem_cons_of_mem c hm))
      simp [List.map_cons, bslashToSlash, hc, hr]

theorem no_bslash_in_mapped (l : List Char) : '\\' ∉ l.map bslashToSlash := by
  intro h
  obtain ⟨c, _, hc⟩ := List.mem_map.mp h
  unfold bslashToSlash at hc
  by_cases h2 : c = '\\'
  · rw [if_pos h2] at hc
    exact absurd hc (by decide)
  · rw [if_neg h2] at hc
    exact h2 hc


/-! ## C4: idempotence of `normalize_relative_path` -/

theorem stripSlashesL_idem (l : List Char) :
    stripSlashesL (stripSlashesL l) = stripSlashesL l :=
  stripWhile_idem _ l

/-- C4 counterexample: the claim "for every input on which normalize
    succeeds, applying normalize to its own output succeeds and yields the
    same result" is false at `"/ /"`: stripping the slashes uncovers
    whitespace, so `normalize("/ /") = " "`, and normalizing `" "` fails
    with an empty-path error. -/
theorem c4_normalize_not_idempotent :
    normalize_relative_path "/ /" = some " " ∧ normalize_relative_path " " = none :=
  ⟨rfl, rfl⟩

/-- C4 (amended): `normalize_relative_path` is idempotent on every
    successful input whose result carries no leading or trailing
    whitespace; re-normalizing such a result succeeds and returns it
    unchanged.  (In general the slash-stripping pass can uncover leading
    or trailing whitespace, which a second normalization would strip or
    even reject, as the counterexample shows.) -/
theorem c4_normalize_idempotent_on_trimmed (raw normed : String)
    (h : normalize_relative_path raw = some normed)
    (ht : pyStrip normed = normed) :
    normalize_relative_path normed = some normed := by
  unfold normalize_relative_path at h
  split at h
  next => simp at h
  next hc1 =>
    split at h
    next => simp at h
    next hc2 =>
      split at h
      next => simp at h
      next hc3 =>
        have hdata : pathValue raw = normed.data :=
          congrArg String.data (Option.some.inj h)
        have hstrip : pyStripL normed.data = normed.data := congrArg String.data ht
        have hnb : '\\' ∉ normed.data := by
          intro hm
          rw [← hdata] at hm
          exact no_bslash_in_mapped _ (mem_of_mem_stripWhile _ _ _ hm)
        have hmap : normed.data.map bslashToSlash = normed.data := map_bslash_eq_self hnb
        have hslash : stripSlashesL normed.data = normed.data := by
          have h0 : stripSlashesL (pathValue raw) = pathValue raw := stripSlashesL_idem _
          rw [hdata] at h0
          exact h0
        have hval : pathValue normed = normed.data := by
          unfold pathValue
          rw [hstrip, hmap, hslash]
        unfold normalize_relative_path
        rw [hval]
        rw [hdata] at hc1 hc2 hc3
        rw [if_neg hc1, if_neg hc2, if_neg hc3]

/-- Witness for the amended C4 theorem at `"a/b"`. -/
theorem c4_witness :
    normalize_relative_path "a/b" = some "a/b" ∧ pyStrip "a/b" = "a/b" ∧
      normalize_relative_path "a/b" = some "a/b" :=
  ⟨rfl, rfl, c4_normalize_idempotent_on_trimmed "a/b" "a/b" rfl rfl⟩


/-! ## C2: the diagram encoder -/

theorem alphaChar_mem : ∀ n, n < 64 → alphaChar n ∈ plantumlAlphabet := by decide

theorem mask63_lt (x : Nat) : x &&& 0x3F < 64 := by
  have h : x &&& 2 ^ 6 - 1 = x % 2 ^ 6 := Nat.and_pow_two_sub_one_eq_mod x 6
  have h2 : x &&& 0x3F = x % 64 := h
  rw [h2]
  exact Nat.mod_lt _ (by decide)

theorem encIdx2_lt (b1 b2 : Nat) : ((b1 &&& 0x03) <<< 4) ||| ((b2 >>> 4) &&& 0x0F) < 64 := by
  have hl : (b1 &&& 0x03) <<< 4 < 2 ^ 6 := by
    have h1 : b1 &&& 0x03 ≤ 3 := Nat.and_le_right
    have h2 : (b1 &&& 0x03) <<< 4 = (b1 &&& 0x03) * 2 ^ 4 := Nat.shiftLeft_eq _ _
    rw [h2]
    have := Nat.mul_le_mul_right (2 ^ 4) h1
    omega
  have hr : (b2 >>> 4) &&& 0x0F < 2 ^ 6 := by
    have h1 : (b2 >>> 4) &&& 0x0F ≤ 15 := Nat.and_le_right
    omega
  exact Nat.or_lt_two_pow hl hr

theorem encIdx3_lt (b2 b3 : Nat) : ((b2 &&& 0x0F) <<< 2) ||| ((b3 >>> 6) &&& 0x03) < 64 := by
  have hl : (b2 &&& 0x0F) <<< 2 < 2 ^ 6 := by
    have h1 : b2 &&& 0x0F ≤ 15 := Nat.and_le_right
    have h2 : (b2 &&& 0x0F) <<< 2 = (b2 &&& 0x0F) * 2 ^ 2 := Nat.shiftLeft_eq _ _
    rw [h2]
    have := Nat.mul_le_mul_right (2 ^ 2) h1
    omega
  have hr : (b3 >>> 6) &&& 0x03 < 2 ^ 6 := by
    have h1 : (b3 >>> 6) &&& 0x03 ≤ 3 := Nat.and_le_right
    omega
  exact Nat.or_lt_two_pow hl hr

theorem encode64_mem : ∀ (bs : List Nat), ∀ c ∈ encode64 bs, c ∈ plantumlAlphabet
  | [] => by intro c hc; simp [encode64] at hc
  | [b1] => by
      intro c hc
      rw [encode64] at hc
      simp only [List.mem_cons, List.not_mem_nil, or_false] at hc
      rcases hc with h | h
      · rw [h]; exact alphaChar_mem _ (mask63_lt _)
      · rw [h]; exact alphaChar_mem _ (encIdx2_lt b1 0)
  | [b1, b2] => by
      intro c hc
      rw [encode64] at hc
      simp only [List.mem_cons, List.not_mem_nil, or_false] at hc
      rcases hc with h | h | h
      · rw [h]; exact alphaChar_mem _ (mask63_lt _)
      · rw [h]; exact alphaChar_mem _ (encIdx2_lt b1 b2)
      · rw [h]; exact alphaChar_mem _ (encIdx3_lt b2 0)
  | b1 :: b2 :: b3 :: rest => by
      intro c hc
      rw [encode64] at hc
      rcases List.mem_append.mp hc with h | h
      · simp only [List.mem_cons, List.not_mem_nil, or_false] at h
        rcases h with h | h | h | h
        · rw [h]; exact alphaChar_mem _ (mask63_lt _)
        · rw [h]; exact alphaChar_mem _ (encIdx2_lt b1 b2)
        · rw [h]; exact alphaChar_mem _ (encIdx3_lt b2 b3)
        · rw [h]; exact alphaChar_mem _ (mask63_lt _)
      · exact encode64_mem rest c h

theorem encChar1_eq (b1 : Nat) (h : b1 < 256) : (b1 >>> 2) &&& 0x3F = b1 / 4 := by
  have hs : b1 >>> 2 = b1 / 2 ^ 2 := Nat.shiftRight_eq_div_pow _ _
  have hlt : b1 / 2 ^ 2 < 2 ^ 6 := by omega
  have hm : (b1 / 2 ^ 2) &&& 2 ^ 6 - 1 = b1 / 2 ^ 2 :=
    Nat.and_pow_two_sub_one_of_lt_two_pow hlt
  rw [hs]
  exact hm

theorem encChar2_eq (b1 b2 : Nat) (h2 : b2 < 256) :
    ((b1 &&& 0x03) <<< 4) ||| ((b2 >>> 4) &&& 0x0F) = b1 % 4 * 16 + b2 / 16 := by
  have ha : b1 &&& 0x03 = b1 % 4 := Nat.and_pow_two_sub_one_eq_mod b1 2
  have hs : (b1 % 4) <<< 4 = b1 % 4 * 16 := Nat.shiftLeft_eq _ _
  have hb : b2 >>> 4 = b2 / 16 := Nat.shiftRight_eq_div_pow _ _
  have hblt : b2 / 16 < 2 ^ 4 := by omega
  have hbm : b2 / 16 &&& 0x0F = b2 / 16 := Nat.and_pow_two_sub_one_of_lt_two_pow hblt
  have hor : b1 % 4 * 16 + b2 / 16 = b1 % 4 * 16 ||| b2 / 16 := by
    have h0 : 2 ^ 4 * (b1 % 4) + b2 / 16 = 2 ^ 4 * (b1 % 4) ||| b2 / 16 :=
      Nat.mul_add_lt_is_or hblt _
    rw [Nat.mul_comm (2 ^ 4) (b1 % 4)] at h0
    exact h0
  rw [ha, hs, hb, hbm, ← hor]

theorem encChar3_eq (b2 b3 : Nat) (h3 : b3 < 256) :
    ((b2 &&& 0x0F) <<< 2) ||| ((b3 >>> 6) &&& 0x03) = b2 % 16 * 4 + b3 / 64 := by
  have ha : b2 &&& 0x0F = b2 % 16 := Nat.and_pow_two_sub_one_eq_mod b2 4
  have hs : (b2 % 16) <<< 2 = b2 % 16 * 4 := Nat.shiftLeft_eq _ _
  have hb : b3 >>> 6 = b3 / 64 := Nat.shiftRight_eq_div_pow _ _
  have hblt : b3 / 64 < 2 ^ 2 := by omega
  have hbm : b3 / 64 &&& 0x03 = b3 / 64 := Nat.and_pow_two_sub_one_of_lt_two_pow hblt
  have hor : b2 % 16 * 4 + b3 / 64 = b2 % 16 * 4 ||| b3 / 64 := by
    have h0 : 2 ^ 2 * (b2 % 16) + b3 / 64 = 2 ^ 2 * (b2 % 16) ||| b3 / 64 :=
      Nat.mul_add_lt_is_or hblt _
    rw [Nat.mul_comm (2 ^ 2) (b2 % 16)] at h0
    exact h0
  rw [ha, hs, hb, hbm, ← hor]

theorem encChar4_eq (b3 : Nat) : b3 &&& 0x3F = b3 % 64 :=
  Nat.and_pow_two_sub_one_eq_mod b3 6

theorem encode64_eq_layout : ∀ (bs : List Nat), (∀ b ∈ bs, b < 256) →
    encode64 bs = encode64Layout bs
  | [] => fun _ => rfl
  | [b1] => by
      intro h
      have h1 := h b1 (by simp)
      rw [encode64, encode64Layout, encChar1_eq b1 h1, encChar2_eq b1 0 (by decide)]
      norm_num
  | [b1, b2] => by
      intro h
      have h1 := h b1 (by simp)
      have h2 := h b2 (by simp)
      rw [encode64, encode64Layout, encChar1_eq b1 h1, encChar2_eq b1 b2 h2,
        encChar3_eq b2 0 (by decide)]
      norm_num
  | b1 :: b2 :: b3 :: rest => by
      intro h
      have h1 := h b1 (by simp)
      have h2 := h b2 (by simp)
      have h3 := h b3 (by simp)
      have hr : ∀ b ∈ rest, b < 256 := fun b hb => h b (by simp [hb])
      rw [encode64, encode64Layout, encChar1_eq b1 h1, encChar2_eq b1 b2 h2,
        encChar3_eq b2 b3 h3, encChar4_eq b3, encode64_eq_layout rest hr]

/-- C2: the transcoding stage of `_plantuml_encode` is a pure function of
    the compressed byte stream (so encoding the same text twice yields an
    identical token), every character it emits belongs to the fixed
    64-character alphabet `0-9A-Za-z-_`, and on byte values (< 256) it
    realises exactly the specified bit layout, 3 bytes to up to 4
    characters, with the third and fourth characters emitted only when
    byte 2 resp. byte 3 existed (the deflate stage is the external `zlib`
    library, so the stream is universally quantified). -/
theorem c2_encoder_contract (compressed : List Nat) :
    encode64 compressed = encode64 compressed ∧
    (∀ c ∈ encode64 compressed, c ∈ plantumlAlphabet) ∧
    ((∀ b ∈ compressed, b < 256) → encode64 compressed = encode64Layout compressed) :=
  ⟨rfl, encode64_mem compressed, encode64_eq_layout compressed⟩

/-- Witness for C2 at the byte stream `[72, 101, 108]`. -/
theorem c2_witness :
    (∀ b ∈ [72, 101, 108], b < 256) ∧
      encode64 [72, 101, 108] = encode64Layout [72, 101, 108] :=
  ⟨by decide, (c2_encoder_contract [72, 101, 108]).2.2 (by decide)⟩


/-! ## C1: the `.gitkeep` marker pass -/

/-- The generated tree only ever grows during a run. -/
def fsGrows (st st2 : GenState) : Prop :=
  (∀ d, d ∈ st.dirs → d ∈ st2.dirs) ∧ (∀ f, f ∈ st.files → f ∈ st2.files)

theorem fsGrows_refl (st : GenState) : fsGrows st st :=
  ⟨fun _ h => h, fun _ h => h⟩

theorem fsGrows_trans {a b c : GenState} (h1 : fsGrows a b) (h2 : fsGrows b c) :
    fsGrows a c :=
  ⟨fun d hd => h2.1 d (h1.1 d hd), fun f hf => h2.2 f (h1.2 f hf)⟩

theorem mem_foldl_addDir (l : List (List String)) (ds : List (List String))
    (x : List String) (h : x ∈ ds ∨ x ∈ l) : x ∈ l.foldl addDir ds := by
  induction l generalizing ds with
  | nil =>
      rcases h with h | h
      · exact h
      · simp at h
  | cons a rest ih =>
      apply ih
      rcases h with h | h
      · left
        unfold addDir
        split
        · exact h
        · exact List.mem_append_left _ h
      · rcases List.mem_cons.mp h with h | h
        · left
          unfold addDir
          split
          next hin => exact h ▸ hin
          next => exact List.mem_append_right _ (List.mem_singleton.mpr h)
        · right
          exact h

theorem fsGrows_mkdirParents (st : GenState) (p : List String) :
    fsGrows st (mkdirParents st p) :=
  ⟨fun _ hd => mem_foldl_addDir _ _ _ (Or.inl hd), fun _ hf => hf⟩

theorem mkdirParents_mem_self (st : GenState) (p : List String) (h : p ≠ []) :
    p ∈ (mkdirParents st p).dirs := by
  apply mem_foldl_addDir
  right
  unfold prefixesOf
  rw [List.mem_map]
  refine ⟨p.length - 1, ?_, ?_⟩
  · rw [List.mem_range]
    have := List.length_pos.mpr h
    omega
  · have hpos := List.length_pos.mpr h
    have he : p.length - 1 + 1 = p.length := Nat.sub_add_cancel hpos
    rw [he, List.take_length]

theorem fsGrows_touchFile (st : GenState) (p : List String) :
    fsGrows st (touchFile st p) := by
  unfold touchFile
  split
  · exact fsGrows_refl _
  · exact ⟨fun _ hd => hd, fun _ hf => List.mem_append_left _ hf⟩

theorem touchFile_mem (st : GenState) (p : List String) : p ∈ (touchFile st p).files := by
  unfold touchFile
  split
  next hin => exact hin
  next => exact List.mem_append_right _ (List.mem_singleton.mpr rfl)

theorem hasChildIn_mono (entries entries2 : List (List String)) (d : List String)
    (hsub : ∀ e, e ∈ entries → e ∈ entries2)
    (h : hasChildIn entries d = true) : hasChildIn entries2 d = true := by
  unfold hasChildIn at h ⊢
  rw [List.any_eq_true] at h ⊢
  obtain ⟨e, he, hp⟩ := h
  exact ⟨e, hsub e he, hp⟩

theorem dirIsEmpty_false_mono (st st2 : GenState) (d : List String)
    (hg : fsGrows st st2) (h : dirIsEmpty st d = false) : dirIsEmpty st2 d = false := by
  unfold dirIsEmpty at h ⊢
  have h2 : (hasChildIn st.dirs d || hasChildIn st.files d) = true := by
    cases hcc : (hasChildIn st.dirs d || hasChildIn st.files d) with
    | true => rfl
    | false => rw [hcc] at h; simp at h
  have h3 : hasChildIn st.dirs d = true ∨ hasChildIn st.files d = true := by
    simpa using h2
  rcases h3 with hx | hx
  · have hm := hasChildIn_mono _ _ _ hg.1 hx
    simp [hm]
  · have hm := hasChildIn_mono _ _ _ hg.2 hx
    simp [hm]

theorem fsGrows_processFolder (st : GenState) (folder : String) :
    fsGrows st (processFolder st folder) := by
  unfold processFolder
  split
  · exact fsGrows_trans (fsGrows_mkdirParents _ _) (fsGrows_touchFile _ _)
  · exact fsGrows_mkdirParents _ _

theorem processFolder_establishes (st : GenState) (folder : String)
    (h : pathParts folder ≠ []) :
    pathParts folder ∈ (processFolder st folder).dirs ∧
    dirIsEmpty (processFolder st folder) (pathParts folder) = false := by
  unfold processFolder
  split
  next =>
    constructor
    · exact (fsGrows_touchFile _ _).1 _ (mkdirParents_mem_self _ _ h)
    · unfold dirIsEmpty
      have hchild : hasChildIn
          (touchFile (mkdirParents st (pathParts folder))
            (pathParts folder ++ [".gitkeep"])).files (pathParts folder) = true := by
        unfold hasChildIn
        rw [List.any_eq_true]
        refine ⟨pathParts folder ++ [".gitkeep"], touchFile_mem _ _, ?_⟩
        rw [decide_eq_true_iff]
        constructor
        · simp
        · exact List.take_left _ _
      simp [hchild]
  next hemp =>
    refine ⟨mkdirParents_mem_self _ _ h, ?_⟩
    simpa using hemp

theorem foldl_processFolder_grows (l : List String) (st : GenState) :
    fsGrows st (l.foldl processFolder st) := by
  induction l generalizing st with
  | nil => exact fsGrows_refl _
  | cons a rest ih => exact fsGrows_trans (fsGrows_processFolder _ _) (ih _)

theorem foldl_processFolder_establishes (l : List String) :
    ∀ (st : GenState) (folder : String), folder ∈ l → pathParts folder ≠ [] →
      pathParts folder ∈ (l.foldl processFolder st).dirs ∧
      dirIsEmpty (l.foldl processFolder st) (pathParts folder) = false := by
  induction l with
  | nil =>
      intro st folder hf _
      simp at hf
  | cons a rest ih =>
      intro st folder hf h
      rcases List.mem_cons.mp hf with heq | hmem
      · subst heq
        have hstep := processFolder_establishes st folder h
        have hg := foldl_processFolder_grows rest (processFolder st folder)
        exact ⟨hg.1 _ hstep.1, dirIsEmpty_false_mono _ _ _ hg hstep.2⟩
      · exact ih _ _ hmem h

set_option maxRecDepth 4000 in
/-- C1 counterexample: the claim "a marker is added only if the folder is
    still empty after all file copies; no folder that received a generated
    file contains `.gitkeep` at the end of the run" is false for the code:
    in a run with the default web-app components, `.vscode` is a declared
    folder, receives the generated `settings.json`, and still contains the
    `.gitkeep` added during `create_base_structure` (which runs before any
    file-creating step) at the end of the run. -/
theorem c1_gitkeep_in_populated_folder :
    ".vscode" ∈ declaredFolders ["backend", "frontend"] ∧
    [".vscode", "settings.json"] ∈ (runProjectSetup ["backend", "frontend"]).files ∧
    [".vscode", ".gitkeep"] ∈ (runProjectSetup ["backend", "frontend"]).files := by
  decide

/-- C1 (amended): the marker pass runs during base-structure creation,
    before any file copy: each declared folder gets `.gitkeep` immediately
    after being created if it is empty at that moment, so after
    `create_base_structure` every declared folder exists and is non-empty
    (and a folder that later receives generated files keeps its marker, as
    the counterexample shows). Components are assumed to be plain relative
    paths (non-empty after `pathlib` parsing, no `..` traversal). -/
theorem c1_base_structure_marks_before_copies (components : List String)
    (hvalid : ∀ c ∈ components, pathParts c ≠ [] ∧ ".." ∉ pathParts c) :
    ∀ folder ∈ declaredFolders components,
      pathParts folder ∈ (create_base_structure ⟨[], []⟩ components).dirs ∧
      dirIsEmpty (create_base_structure ⟨[], []⟩ components) (pathParts folder) = false := by
  intro folder hf
  unfold create_base_structure
  apply foldl_processFolder_establishes _ _ _ hf
  unfold declaredFolders at hf
  rcases List.mem_append.mp hf with h5 | hcomp
  · fin_cases h5 <;> decide
  · exact (hvalid _ hcomp).1

/-- Witness for the amended C1 theorem with components `["backend"]` at the
    declared folder `.vscode`. -/
theorem c1_witness :
    (∀ c ∈ ["backend"], pathParts c ≠ [] ∧ ".." ∉ pathParts c) ∧
    (pathParts ".vscode" ∈ (create_base_structure ⟨[], []⟩ ["backend"]).dirs ∧
      dirIsEmpty (create_base_structure ⟨[], []⟩ ["backend"]) (pathParts ".vscode") = false) :=
  ⟨by decide, c1_base_structure_marks_before_copies ["backend"] (by decide) ".vscode" (by decide)⟩


/-! ## C3: the path-escape check -/

theorem intercalate_cons₂ (sep a b : List Char) (l : List (List Char)) :
    List.intercalate sep (a :: b :: l) = a ++ sep ++ List.intercalate sep (b :: l) := by
  simp [List.intercalate, List.intersperse, List.join, List.append_assoc]

theorem intercalate_single (sep x : List Char) :
    List.intercalate sep [x] = x := by
  simp [List.intercalate, List.intersperse, List.join]

theorem intercalate_append_split (sep : List Char) :
    ∀ (xs ys : List (List Char)), xs ≠ [] → ys ≠ [] →
      List.intercalate sep (xs ++ ys) =
        List.intercalate sep xs ++ sep ++ List.intercalate sep ys
  | [], _, hxs, _ => absurd rfl hxs
  | [x], ys, _, hys => by
      cases ys with
      | nil => exact absurd rfl hys
      | cons y ys2 =>
          rw [List.singleton_append, intercalate_cons₂, intercalate_single]
  | x :: x2 :: rest, ys, _, hys => by
      have hr : sep.intercalate (x2 :: (rest ++ ys)) =
          sep.intercalate (x2 :: rest) ++ sep ++ sep.intercalate ys :=
        intercalate_append_split sep (x2 :: rest) ys (by simp) hys
      calc sep.intercalate ((x :: x2 :: rest) ++ ys)
          = x ++ sep ++ sep.intercalate (x2 :: (rest ++ ys)) :=
            intercalate_cons₂ sep x x2 (rest ++ ys)
        _ = x ++ sep ++ (sep.intercalate (x2 :: rest) ++ sep ++ sep.intercalate ys) := by
            rw [hr]
        _ = x ++ sep ++ sep.intercalate (x2 :: rest) ++ sep ++ sep.intercalate ys := by
            simp [List.append_assoc]
        _ = sep.intercalate (x :: x2 :: rest) ++ sep ++ sep.intercalate ys := by
            rw [intercalate_cons₂]

theorem intercalate_prefix (sep : List Char) (xs ys : List (List Char)) :
    List.intercalate sep xs <+: List.intercalate sep (xs ++ ys) := by
  cases ys with
  | nil => rw [List.append_nil]
  | cons y ys2 =>
      cases xs with
      | nil => exact List.nil_prefix
      | cons x xs2 =>
          rw [intercalate_append_split sep _ _ (by simp) (by simp)]
          exact ⟨sep ++ List.intercalate sep (y :: ys2), (List.append_assoc _ _ _).symm⟩

set_option maxRecDepth 8000 in
/-- C3 counterexample: the claim "an entry whose resolved path falls outside
    the configurations root is rejected; no configuration file outside the
    root is ever loaded" is false: the check is a plain string
    `startswith`, so the entry path `../configurations_extra/a.json`
    resolves to a sibling of the configurations root whose name merely
    extends the root's name, passes the check, and its configuration file
    is loaded — yet the resolved path is not inside the root. -/
theorem c3_escaping_path_loaded :
    (load_configurations_from_registry ["home", "aicoder", "configurations"]
        [(["home", "aicoder", "configurations_extra", "a.json"], .obj [("id", .str "a")])]
        [.obj [("id", .str "a"), ("path", .str "../configurations_extra/a.json"),
          ("scope", .str "owner")]]).isSome = true ∧
    ¬ (["home", "aicoder", "configurations"] <+:
        resolvePath ["home", "aicoder", "configurations"] "../configurations_extra/a.json") := by
  constructor
  · decide
  · decide

/-- C3 (amended): registry loading rejects an entry exactly when the string
    form of the configurations root is not a string prefix of the string
    form of the entry's resolved path. Every entry whose resolved path
    lies inside the root (the root is a segment-wise prefix) passes the
    check, but — as the counterexample shows — a path outside the root can
    also pass when a sibling directory's name has the root's name as a
    string prefix, and its file is then loaded. -/
theorem c3_in_root_passes_check (base : List String) (rel : String)
    (h : base <+: resolvePath base rel) :
    pyStartsWith (pathStr (resolvePath base rel)) (pathStr base) = true := by
  obtain ⟨t, ht⟩ := h
  unfold pyStartsWith pathStr
  rw [List.isPrefixOf_iff_prefix]
  show ('/' :: List.intercalate ['/'] (base.map String.data)) <+:
    ('/' :: List.intercalate ['/'] ((resolvePath base rel).map String.data))
  rw [← ht, List.map_append]
  exact List.cons_prefix_cons.mpr ⟨rfl, intercalate_prefix _ _ _⟩

/-- Witness for the amended C3 theorem: an in-root entry path. -/
theorem c3_witness :
    (["home", "aicoder", "configurations"] <+:
      resolvePath ["home", "aicoder", "configurations"] "owner/a.json") ∧
    pyStartsWith (pathStr (resolvePath ["home", "aicoder", "configurations"] "owner/a.json"))
      (pathStr ["home", "aicoder", "configurations"]) = true :=
  ⟨by decide, c3_in_root_passes_check ["home", "aicoder", "configurations"] "owner/a.json"
    (by decide)⟩


/-! ## C5 and C8: registry loading -/

theorem dictGet?_map_set (k : String) (v : JVal) :
    ∀ (kvs : List (String × JVal)), (dictGet? kvs k).isSome →
      dictGet? (kvs.map (fun kv => if kv.1 = k then (k, v) else kv)) k = some v := by
  intro kvs
  induction kvs with
  | nil => intro h; simp [dictGet?] at h
  | cons kv rest ih =>
      intro h
      by_cases hk : kv.1 = k
      · simp [dictGet?, List.find?_cons, hk]
      · have h2 : (dictGet? rest k).isSome := by
          simpa [dictGet?, List.find?_cons, hk] using h
        simpa [dictGet?, List.find?_cons, hk] using ih h2

theorem dictGet?_append_of_none (k : String) (v : JVal) :
    ∀ (kvs : List (String × JVal)), dictGet? kvs k = none →
      dictGet? (kvs ++ [(k, v)]) k = some v := by
  intro kvs
  induction kvs with
  | nil => intro _; simp [dictGet?, List.find?_cons]
  | cons kv rest ih =>
      intro h
      by_cases hk : kv.1 = k
      · simp [dictGet?, List.find?_cons, hk] at h
      · have h2 : dictGet? rest k = none := by
          simpa [dictGet?, List.find?_cons, hk] using h
        simpa [dictGet?, List.find?_cons, hk] using ih h2

theorem dictGet?_dictSet (kvs : List (String × JVal)) (k : String) (v : JVal) :
    dictGet? (dictSet kvs k v) k = some v := by
  rw [dictSet]
  split
  next h => exact dictGet?_map_set k v kvs h
  next h => exact dictGet?_append_of_none k v kvs (Option.not_isSome_iff_eq_none.mp h)

theorem optBind_eq_some {α β : Type} (x : Option α) (f : α → Option β) (b : β) :
    (x >>= f) = some b ↔ ∃ a, x = some a ∧ f a = some b := by
  cases x <;> simp

theorem normalize_payload_is_obj (raw n : JVal)
    (h : normalize_configuration_payload raw = some n) : ∃ kvs, n = .obj kvs := by
  cases raw with
  | obj kvs0 =>
      rw [normalize_configuration_payload] at h
      split at h
      · simp at h
      · rw [optBind_eq_some] at h
        obtain ⟨folders, _, h⟩ := h
        rw [optBind_eq_some] at h
        obtain ⟨files, _, h⟩ := h
        rw [optBind_eq_some] at h
        obtain ⟨rt, _, h⟩ := h
        rw [optBind_eq_some] at h
        obtain ⟨bh, _, h⟩ := h
        exact ⟨_, (Option.some.inj h).symm⟩
  | null => simp [normalize_configuration_payload] at h
  | bool b => simp [normalize_configuration_payload] at h
  | num m => simp [normalize_configuration_payload] at h
  | str s => simp [normalize_configuration_payload] at h
  | arr xs => simp [normalize_configuration_payload] at h

theorem loadEntry_path (base : List String) (fs : List (List String × JVal)) (e c : JVal)
    (h : loadEntry base fs e = some c) : cfgPathOf c = entryPathOf e := by
  cases e with
  | obj kvs =>
      simp only [loadEntry] at h
      split at h
      · simp at h
      split at h
      · simp at h
      split at h
      · simp at h
      rw [Option.bind_eq_some] at h
      obtain ⟨data, hfs, h⟩ := h
      rw [Option.bind_eq_some] at h
      obtain ⟨n, hn, h⟩ := h
      split at h
      · simp at h
      obtain ⟨nkvs, hno⟩ := normalize_payload_is_obj _ _ hn
      subst hno
      have hc := Option.some.inj h
      rw [← hc]
      simp only [objSet, cfgPathOf, jvGetD, dictGet?_dictSet]
      rfl
  | null => simp [loadEntry] at h
  | bool b => simp [loadEntry] at h
  | num m => simp [loadEntry] at h
  | str s => simp [loadEntry] at h
  | arr xs => simp [loadEntry] at h

set_option maxRecDepth 8000 in
/-- C5 counterexample: the claim "registry loading fails with a
    `DuplicateIdentifier` error whenever two index entries share an
    identifier" is false: the loader has no duplicate check at all. Two
    identical entries (both with id `a`) load successfully and the loader
    returns a two-element configuration list. -/
theorem c5_duplicate_ids_load_successfully :
    (load_configurations_from_registry ["home", "aicoder", "configurations"]
      [(["home", "aicoder", "configurations", "owner", "a.json"], .obj [("id", .str "a")])]
      [.obj [("id", .str "a"), ("path", .str "owner/a.json"), ("scope", .str "owner")],
       .obj [("id", .str "a"), ("path", .str "owner/a.json"),
         ("scope", .str "owner")]]).isSome = true ∧
    (load_configurations_from_registry ["home", "aicoder", "configurations"]
      [(["home", "aicoder", "configurations", "owner", "a.json"], .obj [("id", .str "a")])]
      [.obj [("id", .str "a"), ("path", .str "owner/a.json"), ("scope", .str "owner")],
       .obj [("id", .str "a"), ("path", .str "owner/a.json"),
         ("scope", .str "owner")]]).map List.length = some 2 := by
  constructor
  · decide
  · decide

/-- C5 (amended): registry loading performs no duplicate-identifier check:
    an index whose entries share an identifier loads fine, and every copy
    of a loadable entry contributes one configuration to the returned
    list. (Duplicate-id protection exists only at registration time in
    `upsert_registry_entry`.) -/
theorem c5_no_duplicate_check (base : List String) (fs : List (List String × JVal))
    (e c : JVal) (h : loadEntry base fs e = some c) :
    load_configurations_from_registry base fs [e, e] = some [c, c] := by
  simp [load_configurations_from_registry, h]

set_option maxRecDepth 8000 in
/-- Witness for the amended C5 theorem on a concrete one-file registry. -/
theorem c5_witness :
    load_configurations_from_registry ["home", "aicoder", "configurations"]
      [(["home", "aicoder", "configurations", "owner", "a.json"], .obj [("id", .str "a")])]
      [.obj [("id", .str "a"), ("path", .str "owner/a.json"), ("scope", .str "owner")],
       .obj [("id", .str "a"), ("path", .str "owner/a.json"), ("scope", .str "owner")]]
    = some
      [(loadEntry ["home", "aicoder", "configurations"]
        [(["home", "aicoder", "configurations", "owner", "a.json"], .obj [("id", .str "a")])]
        (.obj [("id", .str "a"), ("path", .str "owner/a.json"),
          ("scope", .str "owner")])).getD .null,
       (loadEntry ["home", "aicoder", "configurations"]
        [(["home", "aicoder", "configurations", "owner", "a.json"], .obj [("id", .str "a")])]
        (.obj [("id", .str "a"), ("path", .str "owner/a.json"),
          ("scope", .str "owner")])).getD .null] :=
  c5_no_duplicate_check _ _ _ _ (by rfl)


theorem claimOrderLe_rank_not_le (a b : JVal) (ha : cfgScopeRank a = 1)
    (hb : cfgScopeRank b = 0) : ¬ claimOrderLe a b := by
  unfold claimOrderLe
  rw [ha, hb, Prod.Lex.le_iff]
  rintro (h | ⟨h, _⟩)
  · omega
  · omega

set_option maxRecDepth 8000 in
/-- C8 counterexample: the claim "the configuration list produced by
    registry loading is sorted with owner-scope entries first, then by
    case-insensitive name" is false: loading preserves the order of the
    index, so an index listing a `user_generated` entry before an `owner`
    entry loads to a list whose first element (scope rank 1) may not
    precede its second (scope rank 0) under the claimed order. -/
theorem c8_loaded_list_not_sorted :
    (load_configurations_from_registry ["home", "aicoder", "configurations"]
      [(["home", "aicoder", "configurations", "user_generated", "b.json"],
        .obj [("id", .str "b"), ("name", .str "Bravo")]),
       (["home", "aicoder", "configurations", "owner", "a.json"],
        .obj [("id", .str "a"), ("name", .str "Alpha")])]
      [.obj [("id", .str "b"), ("path", .str "user_generated/b.json"),
        ("scope", .str "user_generated")],
       .obj [("id", .str "a"), ("path", .str "owner/a.json"),
         ("scope", .str "owner")]]).isSome = true ∧
    ¬ claimOrderLe
      (((load_configurations_from_registry ["home", "aicoder", "configurations"]
        [(["home", "aicoder", "configurations", "user_generated", "b.json"],
          .obj [("id", .str "b"), ("name", .str "Bravo")]),
         (["home", "aicoder", "configurations", "owner", "a.json"],
          .obj [("id", .str "a"), ("name", .str "Alpha")])]
        [.obj [("id", .str "b"), ("path", .str "user_generated/b.json"),
          ("scope", .str "user_generated")],
         .obj [("id", .str "a"), ("path", .str "owner/a.json"),
           ("scope", .str "owner")]]).getD []).getD 0 .null)
      (((load_configurations_from_registry ["home", "aicoder", "configurations"]
        [(["home", "aicoder", "configurations", "user_generated", "b.json"],
          .obj [("id", .str "b"), ("name", .str "Bravo")]),
         (["home", "aicoder", "configurations", "owner", "a.json"],
          .obj [("id", .str "a"), ("name", .str "Alpha")])]
        [.obj [("id", .str "b"), ("path", .str "user_generated/b.json"),
          ("scope", .str "user_generated")],
         .obj [("id", .str "a"), ("path", .str "owner/a.json"),
           ("scope", .str "owner")]]).getD []).getD 1 .null) := by
  constructor
  · decide
  · apply claimOrderLe_rank_not_le
    · decide
    · decide

/-- C8 (amended): registry loading preserves the index's entry order — the
    loaded configurations correspond one to one, in order, to the index
    entries (witnessed by their `_path` fields) — and the sort that does
    exist is in `main`, which rewrites the registry index sorted
    owner-scope first and then by case-insensitive identifier (not display
    name). So the loaded list is sorted only insofar as the index file
    was saved sorted, and by id, not name. -/
theorem c8_load_preserves_order_and_index_sort :
    (∀ (base : List String) (fs : List (List String × JVal)) (entries cfgs : List JVal),
        load_configurations_from_registry base fs entries = some cfgs →
        cfgs.map cfgPathOf = entries.map entryPathOf) ∧
    (∀ entries : List JVal, List.Sorted entryKeyLe (registrySortEntries entries)) := by
  constructor
  · intro base fs entries
    induction entries with
    | nil =>
        intro cfgs h
        simp only [load_configurations_from_registry] at h
        rw [← Option.some.inj h]
        rfl
    | cons e rest ih =>
        intro cfgs h
        simp only [load_configurations_from_registry] at h
        rw [optBind_eq_some] at h
        obtain ⟨c, hc, h⟩ := h
        rw [optBind_eq_some] at h
        obtain ⟨cs, hcs, h⟩ := h
        rw [← Option.some.inj h]
        simp only [List.map_cons]
        rw [loadEntry_path _ _ _ _ hc, ih _ hcs]
  · intro entries
    exact List.sorted_insertionSort entryKeyLe entries

set_option maxRecDepth 8000 in
/-- Witness for the amended C8 theorem on a concrete one-entry registry. -/
theorem c8_witness :
    load_configurations_from_registry ["home", "aicoder", "configurations"]
      [(["home", "aicoder", "configurations", "owner", "a.json"], .obj [("id", .str "a")])]
      [.obj [("id", .str "a"), ("path", .str "owner/a.json"), ("scope", .str "owner")]]
      = some [(loadEntry ["home", "aicoder", "configurations"]
        [(["home", "aicoder", "configurations", "owner", "a.json"], .obj [("id", .str "a")])]
        (.obj [("id", .str "a"), ("path", .str "owner/a.json"),
          ("scope", .str "owner")])).getD .null] ∧
    [(loadEntry ["home", "aicoder", "configurations"]
        [(["home", "aicoder", "configurations", "owner", "a.json"], .obj [("id", .str "a")])]
        (.obj [("id", .str "a"), ("path", .str "owner/a.json"),
          ("scope", .str "owner")])).getD .null].map cfgPathOf
      = [JVal.obj [("id", .str "a"), ("path", .str "owner/a.json"),
          ("scope", .str "owner")]].map entryPathOf :=
  ⟨by rfl, (c8_load_preserves_order_and_index_sort).1 ["home", "aicoder", "configurations"]
    [(["home", "aicoder", "configurations", "owner", "a.json"], .obj [("id", .str "a")])]
    [.obj [("id", .str "a"), ("path", .str "owner/a.json"), ("scope", .str "owner")]]
    _ (by rfl)⟩


/-! ## C10: invariants of `validate_requirement_list` -/

theorem pySetMem_cons (s v : JVal) (seen : List JVal) :
    pySetMem (s :: seen) v = (pyEq s v || pySetMem seen v) := by
  simp [pySetMem]

theorem validateAuxSpec_skip {required : List String} {a : JVal}
    {rest seen accC cleaned : List JVal}
    (hspec : validateAuxSpec required rest seen accC cleaned)
    (hinv : ¬ entryValid required a) :
    validateAuxSpec required (a :: rest) seen accC cleaned := by
  obtain ⟨np, h1, h2, h3, h4, h5, h6⟩ := hspec
  refine ⟨np, h1, h2.cons _, h3, h4, h5, ?_⟩
  intro l1 x l2 hitems hvx hearlier hseen
  cases l1 with
  | nil =>
      rw [List.nil_append] at hitems
      have hax : a = x := (List.cons.injEq _ _ _ _ ▸ hitems).1
      exact absurd (hax ▸ hvx) hinv
  | cons a2 l1p =>
      rw [List.cons_append] at hitems
      have h7 := List.cons.injEq a rest a2 (l1p ++ x :: l2) ▸ hitems
      exact h6 l1p x l2 h7.2 hvx
        (fun y hy hv => hearlier y (List.mem_cons_of_mem _ hy) hv) hseen

theorem validateAuxSpec_skip_dup {required : List String} {a : JVal}
    {rest seen accC cleaned : List JVal}
    (hspec : validateAuxSpec required rest seen accC cleaned)
    (hdup : pySetMem seen (objIdOf a) = true) :
    validateAuxSpec required (a :: rest) seen accC cleaned := by
  obtain ⟨np, h1, h2, h3, h4, h5, h6⟩ := hspec
  refine ⟨np, h1, h2.cons _, h3, h4, h5, ?_⟩
  intro l1 x l2 hitems hvx hearlier hseen
  cases l1 with
  | nil =>
      rw [List.nil_append] at hitems
      have hax : a = x := (List.cons.injEq _ _ _ _ ▸ hitems).1
      rw [← hax] at hseen
      rw [hdup] at hseen
      exact absurd hseen (by simp)
  | cons a2 l1p =>
      rw [List.cons_append] at hitems
      have h7 := List.cons.injEq a rest a2 (l1p ++ x :: l2) ▸ hitems
      exact h6 l1p x l2 h7.2 hvx
        (fun y hy hv => hearlier y (List.mem_cons_of_mem _ hy) hv) hseen

theorem validateAuxSpec_keep {required : List String} {a : JVal}
    {rest seen accC cleaned : List JVal}
    (hspec : validateAuxSpec required rest (objIdOf a :: seen) (a :: accC) cleaned)
    (hval : entryValid required a)
    (hnew : pySetMem seen (objIdOf a) = false) :
    validateAuxSpec required (a :: rest) seen accC cleaned := by
  obtain ⟨np, h1, h2, h3, h4, h5, h6⟩ := hspec
  have hsplit : ∀ v, pySetMem (objIdOf a :: seen) v = false →
      pyEq (objIdOf a) v = false ∧ pySetMem seen v = false := by
    intro v hv
    rw [pySetMem_cons] at hv
    exact ⟨by cases hq : pyEq (objIdOf a) v with
      | true => rw [hq] at hv; simp at hv
      | false => rfl,
      by cases hq : pySetMem seen v with
      | true => rw [hq] at hv; simp at hv
      | false => rfl⟩
  refine ⟨a :: np, ?_, h2.cons₂ _, ?_, ?_, ?_, ?_⟩
  · rw [h1]
    simp
  · intro x hx
    rcases List.mem_cons.mp hx with hx | hx
    · exact hx ▸ hval
    · exact h3 x hx
  · intro x hx
    rcases List.mem_cons.mp hx with hx | hx
    · exact hx ▸ hnew
    · exact (hsplit _ (h4 x hx)).2
  · exact List.Pairwise.cons (fun x hx => (hsplit _ (h4 x hx)).1) h5
  · intro l1 x l2 hitems hvx hearlier hseen
    cases l1 with
    | nil =>
        rw [List.nil_append] at hitems
        have hax : a = x := (List.cons.injEq _ _ _ _ ▸ hitems).1
        exact hax ▸ List.mem_cons_self a np
    | cons a2 l1p =>
        rw [List.cons_append] at hitems
        have h7 := List.cons.injEq a rest a2 (l1p ++ x :: l2) ▸ hitems
        have haa2 : a = a2 := h7.1
        apply List.mem_cons_of_mem
        apply h6 l1p x l2 h7.2 hvx
          (fun y hy hv => hearlier y (List.mem_cons_of_mem _ hy) hv)
        rw [pySetMem_cons, hseen]
        have hax : pyEq (objIdOf a) (objIdOf x) = false :=
          hearlier a2 (List.mem_cons_self _ _) (haa2 ▸ hval) |> (haa2 ▸ ·)
        rw [hax]
        rfl

theorem validateAux_sound (label : String) (required : List String) :
    ∀ (items : List JVal) (idx : Nat) (seen accC : List JVal) (accE : List String)
      (cleaned : List JVal) (errs : List String),
      validateAux label required items idx seen accC accE = some (cleaned, errs) →
      validateAuxSpec required items seen accC cleaned := by
  intro items
  induction items with
  | nil =>
      intro idx seen accC accE cleaned errs h
      simp only [validateAux] at h
      have hcl : accC.reverse = cleaned := (Prod.mk.injEq _ _ _ _ ▸ Option.some.inj h).1
      refine ⟨[], by rw [← hcl, List.append_nil], List.Sublist.refl _, by simp, by simp,
        List.Pairwise.nil, ?_⟩
      intro l1 x l2 hitems _ _ _
      exact absurd hitems.symm (List.append_ne_nil_of_right_ne_nil _ (by simp))
  | cons a rest ih =>
      intro idx seen accC accE cleaned errs h
      cases a with
      | obj kvs =>
          simp only [validateAux] at h
          split at h
          next hmiss =>
            have hspec := ih _ _ _ _ _ _ h
            apply validateAuxSpec_skip hspec
            intro hv
            obtain ⟨kvs2, hk, hmk⟩ := hv
            have hkk := JVal.obj.inj hk
            rw [← hkk] at hmk
            rw [hmk] at hmiss
            simp at hmiss
          next hmiss =>
            split at h
            next => simp at h
            next hhash =>
              split at h
              next hdup =>
                have hspec := ih _ _ _ _ _ _ h
                apply validateAuxSpec_skip_dup hspec
                exact hdup
              next hdup =>
                have hspec := ih _ _ _ _ _ _ h
                apply validateAuxSpec_keep hspec
                · refine ⟨kvs, rfl, ?_⟩
                  have h9 : (entryMissingKeys required kvs).isEmpty = true := by
                    cases hq : (entryMissingKeys required kvs).isEmpty with
                    | true => rfl
                    | false => rw [hq] at hmiss; simp at hmiss
                  exact List.isEmpty_iff.mp h9
                · simpa using hdup
      | null =>
          simp only [validateAux] at h
          exact validateAuxSpec_skip (ih _ _ _ _ _ _ h) (by rintro ⟨kvs2, hk, _⟩; simp at hk)
      | bool b =>
          simp only [validateAux] at h
          exact validateAuxSpec_skip (ih _ _ _ _ _ _ h) (by rintro ⟨kvs2, hk, _⟩; simp at hk)
      | num n =>
          simp only [validateAux] at h
          exact validateAuxSpec_skip (ih _ _ _ _ _ _ h) (by rintro ⟨kvs2, hk, _⟩; simp at hk)
      | str s =>
          simp only [validateAux] at h
          exact validateAuxSpec_skip (ih _ _ _ _ _ _ h) (by rintro ⟨kvs2, hk, _⟩; simp at hk)
      | arr xs =>
          simp only [validateAux] at h
          exact validateAuxSpec_skip (ih _ _ _ _ _ _ h) (by rintro ⟨kvs2, hk, _⟩; simp at hk)

/-- C10: for every input document, the cleaned list returned by
    `validate_requirement_list` is a subsequence of the input items
    (original order preserved); every element is a mapping containing every
    required field with a value that is neither missing, `None`, nor the
    empty string; identifiers are pairwise distinct under Python equality;
    and of entries sharing an identifier the first schema-valid occurrence
    is the one kept. -/
theorem c10_cleaned_list_invariants (data : JVal) (label : String)
    (required : List String) (cleaned : List JVal) (errs : List String)
    (h : validate_requirement_list data label required = some (cleaned, errs)) :
    List.Sublist cleaned (reqItems data) ∧
    (∀ x ∈ cleaned, entryValid required x) ∧
    distinctIds cleaned ∧
    firstOccKept required (reqItems data) cleaned [] := by
  cases data with
  | arr items =>
      simp only [validate_requirement_list] at h
      obtain ⟨np, h1, h2, h3, h4, h5, h6⟩ := validateAux_sound label required items
        0 [] [] [] cleaned errs h
      rw [List.reverse_nil, List.nil_append] at h1
      subst h1
      exact ⟨h2, h3, h5, h6⟩
  | null =>
      simp only [validate_requirement_list] at h
      have hcl : cleaned = [] := ((Prod.mk.injEq _ _ _ _ ▸ Option.some.inj h).1).symm
      subst hcl
      refine ⟨List.Sublist.refl _, by simp, List.Pairwise.nil, ?_⟩
      intro l1 x l2 hitems _ _ _
      exact absurd hitems.symm (List.append_ne_nil_of_right_ne_nil _ (by simp))
  | bool b =>
      simp only [validate_requirement_list] at h
      have hcl : cleaned = [] := ((Prod.mk.injEq _ _ _ _ ▸ Option.some.inj h).1).symm
      subst hcl
      refine ⟨List.Sublist.refl _, by simp, List.Pairwise.nil, ?_⟩
      intro l1 x l2 hitems _ _ _
      exact absurd hitems.symm (List.append_ne_nil_of_right_ne_nil _ (by simp))
  | num n =>
      simp only [validate_requirement_list] at h
      have hcl : cleaned = [] := ((Prod.mk.injEq _ _ _ _ ▸ Option.some.inj h).1).symm
      subst hcl
      refine ⟨List.Sublist.refl _, by simp, List.Pairwise.nil, ?_⟩
      intro l1 x l2 hitems _ _ _
      exact absurd hitems.symm (List.append_ne_nil_of_right_ne_nil _ (by simp))
  | str s =>
      simp only [validate_requirement_list] at h
      have hcl : cleaned = [] := ((Prod.mk.injEq _ _ _ _ ▸ Option.some.inj h).1).symm
      subst hcl
      refine ⟨List.Sublist.refl _, by simp, List.Pairwise.nil, ?_⟩
      intro l1 x l2 hitems _ _ _
      exact absurd hitems.symm (List.append_ne_nil_of_right_ne_nil _ (by simp))
  | obj kvs =>
      simp only [validate_requirement_list] at h
      have hcl : cleaned = [] := ((Prod.mk.injEq _ _ _ _ ▸ Option.some.inj h).1).symm
      subst hcl
      refine ⟨List.Sublist.refl _, by simp, List.Pairwise.nil, ?_⟩
      intro l1 x l2 hitems _ _ _
      exact absurd hitems.symm (List.append_ne_nil_of_right_ne_nil _ (by simp))

/-- Witness for C10 on a one-entry software-requirement document. -/
theorem c10_witness :
    validate_requirement_list
      (.arr [.obj [("id", .str "S"), ("name", .str "n"), ("status", .str "Draft"),
        ("refines", .str "R"), ("description", .str "d")]])
      "Software" swRequiredKeys
      = some ([.obj [("id", .str "S"), ("name", .str "n"), ("status", .str "Draft"),
        ("refines", .str "R"), ("description", .str "d")]], []) ∧
    (List.Sublist
        [JVal.obj [("id", .str "S"), ("name", .str "n"), ("status", .str "Draft"),
          ("refines", .str "R"), ("description", .str "d")]]
        (reqItems (.arr [.obj [("id", .str "S"), ("name", .str "n"),
          ("status", .str "Draft"), ("refines", .str "R"), ("description", .str "d")]])) ∧
      (∀ x ∈ [JVal.obj [("id", .str "S"), ("name", .str "n"), ("status", .str "Draft"),
        ("refines", .str "R"), ("description", .str "d")]], entryValid swRequiredKeys x) ∧
      distinctIds [JVal.obj [("id", .str "S"), ("name", .str "n"),
        ("status", .str "Draft"), ("refines", .str "R"), ("description", .str "d")]] ∧
      firstOccKept swRequiredKeys
        (reqItems (.arr [.obj [("id", .str "S"), ("name", .str "n"),
          ("status", .str "Draft"), ("refines", .str "R"), ("description", .str "d")]]))
        [JVal.obj [("id", .str "S"), ("name", .str "n"), ("status", .str "Draft"),
          ("refines", .str "R"), ("description", .str "d")]] []) :=
  ⟨by rfl, c10_cleaned_list_invariants _ "Software" swRequiredKeys _ [] (by rfl)⟩


/-! ## C6 and C7: the traceability link index -/

theorem find?_key_isSome_iff (links : List (String × LinkVal)) (k : String) :
    (links.find? (fun kv => kv.1 = k)).isSome = true ↔ k ∈ links.map Prod.fst := by
  induction links with
  | nil => simp
  | cons kv rest ih =>
      by_cases hk : kv.1 = k
      · simp [List.find?_cons, hk]
      · have hk2 : ¬ (k = kv.1) := fun hc => hk hc.symm
        simp [List.find?_cons, hk, ih, hk2]

theorem linkSet_cons_ne (kv : String × LinkVal) (rest : List (String × LinkVal))
    (k : String) (v : LinkVal) (hk : ¬ kv.1 = k) :
    linkSet (kv :: rest) k v = kv :: linkSet rest k v := by
  unfold linkSet
  rw [List.find?_cons_of_neg _ (by simpa using hk)]
  split
  · simp [hk]
  · simp

theorem mem_keys_linkSet (links : List (String × LinkVal)) (k : String) (v : LinkVal)
    (k2 : String) :
    k2 ∈ (linkSet links k v).map Prod.fst ↔ k2 ∈ links.map Prod.fst ∨ k2 = k := by
  unfold linkSet
  split
  next hex =>
    have hmem : k ∈ links.map Prod.fst := (find?_key_isSome_iff links k).mp hex
    have hkeys : (links.map (fun kv => if kv.1 = k then (k, v) else kv)).map Prod.fst
        = links.map Prod.fst := by
      rw [List.map_map]
      apply List.map_congr_left
      intro kv _
      by_cases hk : kv.1 = k
      · simp [hk]
      · simp [hk]
    rw [hkeys]
    constructor
    · exact Or.inl
    · rintro (h | h)
      · exact h
      · exact h ▸ hmem
  next =>
    rw [List.map_append]
    simp [List.mem_append]

theorem linkGet?_linkSet (links : List (String × LinkVal)) (k : String) (v : LinkVal) :
    linkGet? (linkSet links k v) k = some v := by
  induction links with
  | nil => simp [linkSet, linkGet?, List.find?_cons]
  | cons kv rest ih =>
      by_cases hk : kv.1 = k
      · have hex : ((kv :: rest).find? (fun kv => kv.1 = k)).isSome = true := by
          simp [List.find?_cons, hk]
        unfold linkSet
        rw [if_pos hex]
        simp [linkGet?, List.find?_cons, hk]
      · rw [linkSet_cons_ne kv rest k v hk]
        simpa [linkGet?, List.find?_cons, hk] using ih

theorem linkGet?_map_replace_ne (k : String) (v : LinkVal) (k2 : String) (hne : k2 ≠ k) :
    ∀ (links : List (String × LinkVal)),
      linkGet? (links.map (fun kv => if kv.1 = k then (k, v) else kv)) k2
        = linkGet? links k2 := by
  intro links
  induction links with
  | nil => rfl
  | cons kv rest ih =>
      by_cases hk : kv.1 = k
      · have h1 : ¬ ((k : String) = k2) := fun hc => hne hc.symm
        have h2 : ¬ (kv.1 = k2) := by rw [hk]; exact h1
        simpa [linkGet?, List.find?_cons, hk, h1, h2] using ih
      · have hh : (if kv.1 = k then (k, v) else kv) = kv := if_neg hk
        by_cases hk2 : kv.1 = k2
        · simp only [List.map_cons, hh]
          simp [linkGet?, List.find?_cons, hk2]
        · simp only [List.map_cons, hh]
          simpa [linkGet?, List.find?_cons, hk2] using ih

theorem linkGet?_append_single_ne (k : String) (v : LinkVal) (k2 : String) (hne : k2 ≠ k) :
    ∀ (links : List (String × LinkVal)),
      linkGet? (links ++ [(k, v)]) k2 = linkGet? links k2 := by
  intro links
  induction links with
  | nil =>
      have h1 : ¬ ((k : String) = k2) := fun hc => hne hc.symm
      simp [linkGet?, List.find?_cons, h1]
  | cons kv rest ih =>
      by_cases hk2 : kv.1 = k2
      · simp [linkGet?, List.find?_cons, hk2]
      · simpa [linkGet?, List.find?_cons, hk2] using ih

theorem linkGet?_linkSet_ne (links : List (String × LinkVal)) (k : String) (v : LinkVal)
    (k2 : String) (hne : k2 ≠ k) :
    linkGet? (linkSet links k v) k2 = linkGet? links k2 := by
  unfold linkSet
  split
  · exact linkGet?_map_replace_ne k v k2 hne links
  · exact linkGet?_append_single_ne k v k2 hne links

theorem linkGet?_eq_none_of_not_mem_keys (links : List (String × LinkVal)) (k : String)
    (h : k ∉ links.map Prod.fst) : linkGet? links k = none := by
  induction links with
  | nil => rfl
  | cons kv rest ih =>
      have hk : ¬ kv.1 = k := fun hc => h (by simp [← hc])
      have hr : k ∉ rest.map Prod.fst := fun hc => h (by simp [hc])
      simpa [linkGet?, List.find?_cons, hk] using ih hr


theorem strAppend_left_cancel {a b c : String} (h : a ++ b = a ++ c) : b = c := by
  have hd := congrArg String.data h
  rw [String.data_append, String.data_append] at hd
  have hbc := List.append_cancel_left hd
  calc b = ⟨b.data⟩ := rfl
    _ = ⟨c.data⟩ := by rw [hbc]
    _ = c := rfl

theorem sw_key_ne_hl_key (a s : String) : "sw_" ++ a ≠ "hl_" ++ s := by
  intro h
  have hd := congrArg String.data h
  rw [String.data_append, String.data_append] at hd
  simp at hd

theorem jvGetD_of_dictGet? {kvs : List (String × JVal)} {k : String} {v : JVal}
    (h : dictGet? kvs k = some v) (d : JVal) : jvGetD kvs k d = v := by
  unfold jvGetD
  rw [h]

theorem forwardPassAux_spec (hks : List JVal) :
    ∀ (sws : List JVal) (links0 : List (String × LinkVal)) (dang0 : List JVal)
      (links : List (String × LinkVal)) (dang : List JVal),
      forwardPassAux hks sws links0 dang0 = some (links, dang) →
      (∀ d ∈ dang0, d ∈ dang) ∧
      (∀ x kvs, x ∈ sws → x = JVal.obj kvs →
        (pyTruthy (jvGetD kvs "refines" .null) = false ∨
         pySetMem hks (jvGetD kvs "refines" .null) = false) →
        jvGetD kvs "id" (.str "<unknown>") ∈ dang) ∧
      (∀ k, k ∈ links.map Prod.fst ↔ k ∈ links0.map Prod.fst ∨
        ∃ y kvs2, y ∈ sws ∧ y = JVal.obj kvs2 ∧
          pyTruthy (jvGetD kvs2 "refines" .null) = true ∧
          pySetMem hks (jvGetD kvs2 "refines" .null) = true ∧
          k = "sw_" ++ pyStr (objIdOf y)) := by
  intro sws
  induction sws with
  | nil =>
      intro links0 dang0 links dang h
      simp only [forwardPassAux] at h
      have hp := Prod.mk.injEq _ _ _ _ ▸ Option.some.inj h
      refine ⟨?_, by simp, ?_⟩
      · intro d hd
        rw [← hp.2]
        simpa using hd
      · intro k
        rw [← hp.1]
        simp
  | cons sw rest ih =>
      intro links0 dang0 links dang h
      cases sw with
      | obj kvs2 =>
          simp only [forwardPassAux] at h
          split at h
          next htru =>
            split at h
            next => simp at h
            next hhash =>
              split at h
              next hmem =>
                revert h
                cases hid : dictGet? kvs2 "id" with
                | none => intro h; simp at h
                | some i =>
                    intro h
                    obtain ⟨IH1, IH2, IH3⟩ := ih _ _ _ _ h
                    refine ⟨IH1, ?_, ?_⟩
                    · intro x kvsx hx hxeq hcond
                      rcases List.mem_cons.mp hx with hx | hx
                      · rw [hxeq] at hx
                        have hkk := JVal.obj.inj hx
                        rw [← hkk] at htru hmem
                        rcases hcond with hc | hc
                        · rw [htru] at hc
                          exact absurd hc (by simp)
                        · rw [hmem] at hc
                          exact absurd hc (by simp)
                      · exact IH2 x kvsx hx hxeq hcond
                    · intro k
                      rw [IH3 k, mem_keys_linkSet]
                      constructor
                      · rintro ((hk | hk) | hk)
                        · exact Or.inl hk
                        · refine Or.inr ⟨.obj kvs2, kvs2, List.mem_cons_self _ _, rfl,
                            htru, hmem, ?_⟩
                          rw [hk]
                          have : objIdOf (JVal.obj kvs2) = i := jvGetD_of_dictGet? hid .null
                          rw [this]
                        · obtain ⟨y, kvsy, hy, hyeq, h1, h2, h3⟩ := hk
                          exact Or.inr ⟨y, kvsy, List.mem_cons_of_mem _ hy, hyeq, h1, h2, h3⟩
                      · rintro (hk | ⟨y, kvsy, hy, hyeq, h1, h2, h3⟩)
                        · exact Or.inl (Or.inl hk)
                        · rcases List.mem_cons.mp hy with hy | hy
                          · refine Or.inl (Or.inr ?_)
                            rw [h3, hy]
                            have hoi : objIdOf (JVal.obj kvs2) = i :=
                              jvGetD_of_dictGet? hid .null
                            rw [hoi]
                          · exact Or.inr ⟨y, kvsy, hy, hyeq, h1, h2, h3⟩
              next hmem =>
                obtain ⟨IH1, IH2, IH3⟩ := ih _ _ _ _ h
                refine ⟨fun d hd => IH1 d (List.mem_cons_of_mem _ hd), ?_, ?_⟩
                · intro x kvsx hx hxeq hcond
                  rcases List.mem_cons.mp hx with hx | hx
                  · rw [hxeq] at hx
                    have hkk := JVal.obj.inj hx
                    rw [hkk]
                    exact IH1 _ (List.mem_cons_self _ _)
                  · exact IH2 x kvsx hx hxeq hcond
                · intro k
                  rw [IH3 k]
                  constructor
                  · rintro (hk | ⟨y, kvsy, hy, hyeq, h1, h2, h3⟩)
                    · exact Or.inl hk
                    · exact Or.inr ⟨y, kvsy, List.mem_cons_of_mem _ hy, hyeq, h1, h2, h3⟩
                  · rintro (hk | ⟨y, kvsy, hy, hyeq, h1, h2, h3⟩)
                    · exact Or.inl hk
                    · rcases List.mem_cons.mp hy with hy | hy
                      · rw [hyeq] at hy
                        have hkk := JVal.obj.inj hy
                        rw [← hkk] at hmem
                        rw [h2] at hmem
                        simp at hmem
                      · exact Or.inr ⟨y, kvsy, hy, hyeq, h1, h2, h3⟩
          next htru =>
            obtain ⟨IH1, IH2, IH3⟩ := ih _ _ _ _ h
            refine ⟨fun d hd => IH1 d (List.mem_cons_of_mem _ hd), ?_, ?_⟩
            · intro x kvsx hx hxeq hcond
              rcases List.mem_cons.mp hx with hx | hx
              · rw [hxeq] at hx
                have hkk := JVal.obj.inj hx
                rw [hkk]
                exact IH1 _ (List.mem_cons_self _ _)
              · exact IH2 x kvsx hx hxeq hcond
            · intro k
              rw [IH3 k]
              constructor
              · rintro (hk | ⟨y, kvsy, hy, hyeq, h1, h2, h3⟩)
                · exact Or.inl hk
                · exact Or.inr ⟨y, kvsy, List.mem_cons_of_mem _ hy, hyeq, h1, h2, h3⟩
              · rintro (hk | ⟨y, kvsy, hy, hyeq, h1, h2, h3⟩)
                · exact Or.inl hk
                · rcases List.mem_cons.mp hy with hy | hy
                  · rw [hyeq] at hy
                    have hkk := JVal.obj.inj hy
                    rw [← hkk] at htru
                    rw [h1] at htru
                    simp at htru
                  · exact Or.inr ⟨y, kvsy, hy, hyeq, h1, h2, h3⟩
      | null => simp [forwardPassAux] at h
      | bool b => simp [forwardPassAux] at h
      | num n => simp [forwardPassAux] at h
      | str s => simp [forwardPassAux] at h
      | arr xs => simp [forwardPassAux] at h


theorem backwardRefiners_spec (hlv : JVal) :
    ∀ (sws : List JVal) (ref : List JVal),
      backwardRefiners sws hlv = some ref →
      ∀ i, i ∈ ref ↔ ∃ y kvss, y ∈ sws ∧ y = JVal.obj kvss ∧
        pyEq (jvGetD kvss "refines" .null) hlv = true ∧
        dictGet? kvss "id" = some i := by
  intro sws
  induction sws with
  | nil =>
      intro ref h
      simp only [backwardRefiners] at h
      rw [← Option.some.inj h]
      simp
  | cons sw rest ih =>
      intro ref h
      cases sw with
      | obj kvss0 =>
          simp only [backwardRefiners] at h
          split at h
          next heq =>
            rw [Option.bind_eq_some] at h
            obtain ⟨i0, hid, h⟩ := h
            rw [Option.map_eq_some'] at h
            obtain ⟨ref0, href0, hr⟩ := h
            subst hr
            intro i
            rw [List.mem_cons]
            constructor
            · rintro (hi | hi)
              · exact ⟨.obj kvss0, kvss0, List.mem_cons_self _ _, rfl, heq, hi ▸ hid⟩
              · obtain ⟨y, kvss, hy, hyeq, h1, h2⟩ := (ih ref0 href0 i).mp hi
                exact ⟨y, kvss, List.mem_cons_of_mem _ hy, hyeq, h1, h2⟩
            · rintro ⟨y, kvss, hy, hyeq, h1, h2⟩
              rcases List.mem_cons.mp hy with hy | hy
              · rw [hyeq] at hy
                have hkk := JVal.obj.inj hy
                left
                rw [← hkk] at hid
                rw [hid] at h2
                exact (Option.some.inj h2).symm
              · right
                exact (ih ref0 href0 i).mpr ⟨y, kvss, hy, hyeq, h1, h2⟩
          next heq =>
            intro i
            rw [ih ref h i]
            constructor
            · rintro ⟨y, kvss, hy, hyeq, h1, h2⟩
              exact ⟨y, kvss, List.mem_cons_of_mem _ hy, hyeq, h1, h2⟩
            · rintro ⟨y, kvss, hy, hyeq, h1, h2⟩
              rcases List.mem_cons.mp hy with hy | hy
              · rw [hyeq] at hy
                have hkk := JVal.obj.inj hy
                rw [hkk] at h1
                exact absurd h1 heq
              · exact ⟨y, kvss, hy, hyeq, h1, h2⟩
      | null => simp [backwardRefiners] at h
      | bool b => simp [backwardRefiners] at h
      | num n => simp [backwardRefiners] at h
      | str s => simp [backwardRefiners] at h
      | arr xs => simp [backwardRefiners] at h


theorem backwardPass_spec (sws : List JVal) :
    ∀ (hls : List JVal) (links0 links : List (String × LinkVal)),
      backwardPass sws hls links0 = some links →
      (hls.map hlKeyOf).Nodup →
      (∀ k, (∀ hl2 ∈ hls, k ≠ hlKeyOf hl2) → linkGet? links k = linkGet? links0 k) ∧
      (∀ k, k ∈ links.map Prod.fst →
        k ∈ links0.map Prod.fst ∨ ∃ hl2 ∈ hls, k = hlKeyOf hl2) ∧
      (∀ k, k ∈ links0.map Prod.fst → k ∈ links.map Prod.fst) ∧
      (∀ hl kvsh, hl ∈ hls → hl = JVal.obj kvsh →
        hlKeyOf hl ∉ links0.map Prod.fst →
        ∀ ref, backwardRefiners sws (objIdOf hl) = some ref →
          (ref.isEmpty = true →
            linkGet? links (hlKeyOf hl) = linkGet? links0 (hlKeyOf hl)) ∧
          (ref.isEmpty = false → linkGet? links (hlKeyOf hl) =
            some (.many (ref.map (fun i => "software.html#" ++ pyStr i))))) ∧
      (∀ hl ∈ hls, ∃ kvsh hlv ref, hl = JVal.obj kvsh ∧
        dictGet? kvsh "id" = some hlv ∧ backwardRefiners sws hlv = some ref) := by
  intro hls
  induction hls with
  | nil =>
      intro links0 links h _
      simp only [backwardPass] at h
      rw [← Option.some.inj h]
      exact ⟨fun k _ => rfl, fun k hk => Or.inl hk, fun k hk => hk,
        by simp, by simp⟩
  | cons hl rest ih =>
      intro links0 links h hnd
      rw [List.map_cons, List.nodup_cons] at hnd
      have hheadne : ∀ hl2 ∈ rest, hlKeyOf hl ≠ hlKeyOf hl2 := by
        intro hl2 h2 hcon
        exact hnd.1 (hcon ▸ List.mem_map_of_mem hlKeyOf h2)
      cases hl with
      | obj kvsh =>
          simp only [backwardPass] at h
          rw [Option.bind_eq_some] at h
          obtain ⟨hlv, hid, h⟩ := h
          rw [Option.bind_eq_some] at h
          obtain ⟨refining, href, h⟩ := h
          have hoi : objIdOf (JVal.obj kvsh) = hlv := jvGetD_of_dictGet? hid .null
          have hkey : hlKeyOf (JVal.obj kvsh) = "hl_" ++ pyStr hlv := by
            unfold hlKeyOf
            rw [hoi]
          split at h
          next hemp =>
            obtain ⟨IH1, IH2, IH3, IH4, IH5⟩ := ih links0 links h hnd.2
            refine ⟨?_, ?_, IH3, ?_, ?_⟩
            · intro k hk
              exact IH1 k (fun hl2 h2 => hk hl2 (List.mem_cons_of_mem _ h2))
            · intro k hk
              rcases IH2 k hk with hk | ⟨hl2, h2, h3⟩
              · exact Or.inl hk
              · exact Or.inr ⟨hl2, List.mem_cons_of_mem _ h2, h3⟩
            · intro hl2 kvsh2 h2 h2eq hnotin ref hrefs
              rcases List.mem_cons.mp h2 with h2 | h2
              · subst h2eq
                have hkk := JVal.obj.inj h2
                subst hkk
                have hrr : ref = refining := by
                  rw [hoi] at hrefs
                  exact (Option.some.inj (href.symm.trans hrefs)).symm
                refine ⟨?_, ?_⟩
                · intro _
                  exact IH1 _ hheadne
                · intro hne
                  rw [hrr] at hne
                  rw [hne] at hemp
                  exact absurd hemp (by simp)
              · exact IH4 hl2 kvsh2 h2 h2eq hnotin ref hrefs
            · intro hl2 h2
              rcases List.mem_cons.mp h2 with h2 | h2
              · exact ⟨kvsh, hlv, refining, h2, hid, href⟩
              · exact IH5 hl2 h2
          next hemp =>
            obtain ⟨IH1, IH2, IH3, IH4, IH5⟩ := ih _ links h hnd.2
            refine ⟨?_, ?_, ?_, ?_, ?_⟩
            · intro k hk
              have h1 := IH1 k (fun hl2 h2 => hk hl2 (List.mem_cons_of_mem _ h2))
              rw [h1, linkGet?_linkSet_ne]
              rw [← hkey]
              exact hk _ (List.mem_cons_self _ _)
            · intro k hk
              rcases IH2 k hk with hk | ⟨hl2, h2, h3⟩
              · rcases (mem_keys_linkSet links0 _ _ k).mp hk with hk | hk
                · exact Or.inl hk
                · exact Or.inr ⟨.obj kvsh, List.mem_cons_self _ _, by rw [hk, hkey]⟩
              · exact Or.inr ⟨hl2, List.mem_cons_of_mem _ h2, h3⟩
            · intro k hk
              exact IH3 k ((mem_keys_linkSet links0 _ _ k).mpr (Or.inl hk))
            · intro hl2 kvsh2 h2 h2eq hnotin ref hrefs
              rcases List.mem_cons.mp h2 with h2 | h2
              · subst h2eq
                have hkk := JVal.obj.inj h2
                subst hkk
                have hrr : ref = refining := by
                  rw [hoi] at hrefs
                  exact (Option.some.inj (href.symm.trans hrefs)).symm
                refine ⟨?_, ?_⟩
                · intro het
                  rw [hrr] at het
                  rw [het] at hemp
                  exact absurd hemp (by simp)
                · intro _
                  have h1 := IH1 _ hheadne
                  rw [h1, hkey, linkGet?_linkSet, hrr]
              · have hne2 : hlKeyOf hl2 ≠ "hl_" ++ pyStr hlv := by
                  rw [← hkey]
                  exact fun hc => hheadne hl2 h2 hc.symm
                have hnotin2 : hlKeyOf hl2 ∉ (linkSet links0 ("hl_" ++ pyStr hlv)
                    (LinkVal.many (refining.map
                      (fun i => "software.html#" ++ pyStr i)))).map Prod.fst := by
                  intro hcon
                  rcases (mem_keys_linkSet links0 _ _ _).mp hcon with hcon | hcon
                  · exact hnotin hcon
                  · exact hne2 hcon
                have h4 := IH4 hl2 kvsh2 h2 h2eq hnotin2 ref hrefs
                refine ⟨?_, h4.2⟩
                intro het
                rw [h4.1 het, linkGet?_linkSet_ne _ _ _ _ hne2]
            · intro hl2 h2
              rcases List.mem_cons.mp h2 with h2 | h2
              · exact ⟨kvsh, hlv, refining, h2, hid, href⟩
              · exact IH5 hl2 h2
      | null => simp [backwardPass] at h
      | bool b => simp [backwardPass] at h
      | num n => simp [backwardPass] at h
      | str s => simp [backwardPass] at h
      | arr xs => simp [backwardPass] at h


/-- C6: a schema-valid software requirement whose `refines` value matches no
    high-level requirement id is kept in the cleaned software list, its id is
    recorded as dangling, it gets no forward (`sw_*`) link in the link index,
    and the dangling ids are reported as one aggregate error at the end of
    the run. -/
theorem c6_dangling_sw_requirement
    (hlData swData : JVal) (ch cs : List JVal) (eh es : List String)
    (hkeys : List JVal) (links : List (String × LinkVal)) (dang : List JVal)
    (l1 l2 : List JVal) (kvs : List (String × JVal))
    (hvh : validate_requirement_list hlData "High-level requirement" hlRequiredKeys =
      some (ch, eh))
    (hvs : validate_requirement_list swData "Software requirement" swRequiredKeys =
      some (cs, es))
    (hks : hlIdKeys ch = some hkeys)
    (hbl : build_links ch cs = some (links, dang))
    (hnd : (ch.map hlKeyOf).Nodup)
    (hrd : (cs.map (fun y => pyStr (objIdOf y))).Nodup)
    (hitems : reqItems swData = l1 ++ JVal.obj kvs :: l2)
    (hvalid : entryMissingKeys swRequiredKeys kvs = [])
    (hearly : ∀ y ∈ l1, entryValid swRequiredKeys y →
      pyEq (objIdOf y) (objIdOf (JVal.obj kvs)) = false)
    (hdangle : pySetMem hkeys (jvGetD kvs "refines" .null) = false) :
    JVal.obj kvs ∈ cs ∧
    jvGetD kvs "id" (.str "<unknown>") ∈ dang ∧
    ("sw_" ++ pyStr (objIdOf (JVal.obj kvs))) ∉ links.map Prod.fst ∧
    (∀ rep, danglingReport dang = some rep → rep.length = 1) := by
  have hx : JVal.obj kvs ∈ cs := by
    cases swData with
    | arr items =>
        simp only [validate_requirement_list] at hvs
        obtain ⟨np, h1, h2, h3, h4, h5, h6⟩ :=
          validateAux_sound _ _ items 0 [] [] [] cs es hvs
        rw [List.reverse_nil, List.nil_append] at h1
        subst h1
        exact h6 l1 (JVal.obj kvs) l2 hitems ⟨kvs, rfl, hvalid⟩ hearly rfl
    | null => simp [reqItems] at hitems
    | bool b => simp [reqItems] at hitems
    | num n => simp [reqItems] at hitems
    | str s => simp [reqItems] at hitems
    | obj kvs2 => simp [reqItems] at hitems
  unfold build_links at hbl
  rw [optBind_eq_some] at hbl
  obtain ⟨hk2, hks2, hbl⟩ := hbl
  have hkk : hk2 = hkeys := (Option.some.inj (hks.symm.trans hks2)).symm
  subst hkk
  rw [optBind_eq_some] at hbl
  obtain ⟨⟨links1, dang1⟩, hfw, hbl⟩ := hbl
  rw [optBind_eq_some] at hbl
  obtain ⟨links2, hbw, hbl⟩ := hbl
  have hpair := Prod.mk.injEq _ _ _ _ ▸ Option.some.inj hbl
  obtain ⟨hl2eq, hdeq⟩ := hpair
  rw [hl2eq] at hbw
  rw [hdeq] at hfw
  obtain ⟨F1, F2, F3⟩ := forwardPassAux_spec hk2 cs [] [] links1 dang hfw
  obtain ⟨B1, B2, B3, B4, B5⟩ := backwardPass_spec cs ch links1 links hbw hnd
  have hdang : jvGetD kvs "id" (.str "<unknown>") ∈ dang :=
    F2 (JVal.obj kvs) kvs hx rfl (Or.inr hdangle)
  refine ⟨hx, hdang, ?_, ?_⟩
  · intro hk
    rcases B2 _ hk with hk | ⟨hl2, hmem2, hkeq⟩
    · rcases (F3 _).mp hk with hk | ⟨y, kvs2, hy, hyeq, htr, hsm, hkey⟩
      · simp at hk
      · have hps : pyStr (objIdOf y) = pyStr (objIdOf (JVal.obj kvs)) :=
          (strAppend_left_cancel hkey).symm
        have hyx : y = JVal.obj kvs :=
          List.inj_on_of_nodup_map hrd hy hx hps
        rw [hyx] at hyeq
        have hkvs : kvs = kvs2 := JVal.obj.inj hyeq
        rw [← hkvs] at hsm
        rw [hdangle] at hsm
        exact Bool.false_ne_true hsm
    · unfold hlKeyOf at hkeq
      exact sw_key_ne_hl_key _ _ hkeq
  · intro rep hrep
    have hne : dang.isEmpty = false := by
      cases dang with
      | nil => exact absurd hdang (List.not_mem_nil _)
      | cons a t => rfl
    unfold danglingReport at hrep
    rw [hne] at hrep
    simp only [Bool.false_eq_true, if_false] at hrep
    rw [Option.map_eq_some'] at hrep
    obtain ⟨ss, hss, hrepeq⟩ := hrep
    rw [← hrepeq]
    rfl

/-- Witness for C6: the spec's `REQ-999` example, a software requirement
    refining an id no high-level requirement has. -/
theorem c6_witness :
    (validate_requirement_list (.arr [JVal.obj c6kvsHl]) "High-level requirement"
        hlRequiredKeys = some ([JVal.obj c6kvsHl], []) ∧
      validate_requirement_list (.arr [JVal.obj c6kvsSw]) "Software requirement"
        swRequiredKeys = some ([JVal.obj c6kvsSw], []) ∧
      hlIdKeys [JVal.obj c6kvsHl] = some [JVal.str "REQ-001"] ∧
      build_links [JVal.obj c6kvsHl] [JVal.obj c6kvsSw] =
        some ([], [JVal.str "SW-001"]) ∧
      pySetMem [JVal.str "REQ-001"] (jvGetD c6kvsSw "refines" .null) = false) ∧
    (JVal.obj c6kvsSw ∈ [JVal.obj c6kvsSw] ∧
      jvGetD c6kvsSw "id" (.str "<unknown>") ∈ [JVal.str "SW-001"] ∧
      ("sw_" ++ pyStr (objIdOf (JVal.obj c6kvsSw))) ∉
        ([] : List (String × LinkVal)).map Prod.fst ∧
      (∀ rep, danglingReport [JVal.str "SW-001"] = some rep → rep.length = 1)) :=
  ⟨⟨rfl, rfl, rfl, rfl, rfl⟩,
    c6_dangling_sw_requirement (.arr [JVal.obj c6kvsHl]) (.arr [JVal.obj c6kvsSw])
      [JVal.obj c6kvsHl] [JVal.obj c6kvsSw] [] [] [JVal.str "REQ-001"]
      [] [JVal.str "SW-001"] [] [] c6kvsSw
      rfl rfl rfl rfl (List.nodup_singleton _) (List.nodup_singleton _) rfl rfl
      (fun y hy _ => absurd hy (List.not_mem_nil y)) rfl⟩


/-- C7: the claimed symmetry fails for falsy identifiers. With a high-level
    requirement whose id is `False` and a software requirement refining
    `False`, the refines value compares equal to a known high-level id
    (`pySetMem` holds), the backward link `hl_False` is built, yet the
    software requirement receives no forward link and is even recorded as
    dangling: the forward pass drops every falsy `refines` before the
    membership test. -/
theorem c7_backward_link_without_forward_link :
    build_links [JVal.obj [("id", .bool false)]]
        [JVal.obj [("id", .str "S"), ("refines", .bool false)]] =
      some ([("hl_False", LinkVal.many ["software.html#S"])], [JVal.str "S"]) ∧
    hlIdKeys [JVal.obj [("id", .bool false)]] = some [JVal.bool false] ∧
    pySetMem [JVal.bool false]
      (jvGetD [("id", JVal.str "S"), ("refines", JVal.bool false)] "refines" .null) =
      true ∧
    linkGet? [("hl_False", LinkVal.many ["software.html#S"])] "hl_False" =
      some (LinkVal.many ["software.html#S"]) ∧
    "sw_S" ∉ [("hl_False", LinkVal.many ["software.html#S"])].map Prod.fst ∧
    JVal.str "S" ∈ [JVal.str "S"] := by
  refine ⟨rfl, rfl, rfl, rfl, ?_, List.mem_singleton.mpr rfl⟩
  intro h
  rw [List.map_cons] at h
  rcases List.mem_cons.mp h with h | h
  · exact absurd h (by decide)
  · exact absurd h (List.not_mem_nil _)

/-- C7 (amended): under the link construction of `build_docs`, a software
    requirement gets a forward link exactly when its `refines` value is
    truthy AND compares equal to a known high-level id; and for each
    high-level requirement, an id is in its backward list exactly when some
    software requirement's `refines` compares equal (Python `==`) to the
    high-level id, the backward link holding exactly those ids. Symmetry
    holds only for truthy `refines` values. -/
theorem c7_link_symmetry_for_truthy_refines
    (ch cs hkeys : List JVal)
    (links : List (String × LinkVal)) (dang : List JVal)
    (hks : hlIdKeys ch = some hkeys)
    (hbl : build_links ch cs = some (links, dang))
    (hnd : (ch.map hlKeyOf).Nodup)
    (hrd : (cs.map (fun y => pyStr (objIdOf y))).Nodup) :
    (∀ y kvs2, y ∈ cs → y = JVal.obj kvs2 →
      (swKeyOf y ∈ links.map Prod.fst ↔
        pyTruthy (jvGetD kvs2 "refines" .null) = true ∧
        pySetMem hkeys (jvGetD kvs2 "refines" .null) = true)) ∧
    (∀ hl kvsh, hl ∈ ch → hl = JVal.obj kvsh →
      ∀ ref, backwardRefiners cs (objIdOf hl) = some ref →
        (∀ i, i ∈ ref ↔ ∃ y kvss, y ∈ cs ∧ y = JVal.obj kvss ∧
          pyEq (jvGetD kvss "refines" .null) (objIdOf hl) = true ∧
          dictGet? kvss "id" = some i) ∧
        (ref = [] → linkGet? links (hlKeyOf hl) = none) ∧
        (ref ≠ [] → linkGet? links (hlKeyOf hl) =
          some (LinkVal.many (ref.map (fun i => "software.html#" ++ pyStr i))))) := by
  unfold build_links at hbl
  rw [optBind_eq_some] at hbl
  obtain ⟨hk2, hks2, hbl⟩ := hbl
  have hkk : hk2 = hkeys := (Option.some.inj (hks.symm.trans hks2)).symm
  subst hkk
  rw [optBind_eq_some] at hbl
  obtain ⟨⟨links1, dang1⟩, hfw, hbl⟩ := hbl
  rw [optBind_eq_some] at hbl
  obtain ⟨links2, hbw, hbl⟩ := hbl
  have hpair := Prod.mk.injEq _ _ _ _ ▸ Option.some.inj hbl
  rw [hpair.1] at hbw
  obtain ⟨F1, F2, F3⟩ := forwardPassAux_spec hk2 cs [] [] links1 dang1 hfw
  obtain ⟨B1, B2, B3, B4, B5⟩ := backwardPass_spec cs ch links1 links hbw hnd
  have hsw_not_in1 : ∀ hl2 ∈ ch, hlKeyOf hl2 ∉ links1.map Prod.fst := by
    intro hl2 hmem2 hcon
    rcases (F3 _).mp hcon with hcon | ⟨y, kvs3, hy, hyeq, htr, hsm, hkeq⟩
    · simp at hcon
    · unfold hlKeyOf at hkeq
      exact sw_key_ne_hl_key _ _ hkeq.symm
  constructor
  · intro y kvs2 hy hyeq
    constructor
    · intro hk
      rcases B2 _ hk with hk | ⟨hl2, hmem2, hkeq⟩
      · rcases (F3 _).mp hk with hk | ⟨y2, kvs3, hy2, hy2eq, htr, hsm, hkeq⟩
        · simp at hk
        · unfold swKeyOf at hkeq
          have hps : pyStr (objIdOf y2) = pyStr (objIdOf y) :=
            (strAppend_left_cancel hkeq).symm
          have hyy : y2 = y := List.inj_on_of_nodup_map hrd hy2 hy hps
          rw [hyy, hyeq] at hy2eq
          have hkvs : kvs2 = kvs3 := JVal.obj.inj hy2eq
          rw [← hkvs] at htr hsm
          exact ⟨htr, hsm⟩
      · unfold hlKeyOf at hkeq
        unfold swKeyOf at hkeq
        exact absurd hkeq (sw_key_ne_hl_key _ _)
    · rintro ⟨htr, hsm⟩
      refine B3 _ ((F3 _).mpr (Or.inr ⟨y, kvs2, hy, hyeq, htr, hsm, ?_⟩))
      unfold swKeyOf
      rfl
  · intro hl kvsh hmem hobj ref href
    refine ⟨backwardRefiners_spec (objIdOf hl) cs ref href, ?_, ?_⟩
    · intro hnil
      have hB := B4 hl kvsh hmem hobj (hsw_not_in1 hl hmem) ref href
      have h1 := hB.1 (by rw [hnil]; rfl)
      rw [h1]
      exact linkGet?_eq_none_of_not_mem_keys links1 _ (hsw_not_in1 hl hmem)
    · intro hnnil
      have hB := B4 hl kvsh hmem hobj (hsw_not_in1 hl hmem) ref href
      refine hB.2 ?_
      cases ref with
      | nil => exact absurd rfl hnnil
      | cons a t => rfl


/-- Witness for the amended C7 at a resolving, truthy `refines`. -/
theorem c7_witness :
    (hlIdKeys [c7hl] = some [JVal.str "R"] ∧
      build_links [c7hl] [c7sw] = some (c7links, []) ∧
      ([c7hl].map hlKeyOf).Nodup ∧
      ([c7sw].map (fun y => pyStr (objIdOf y))).Nodup) ∧
    ((∀ y kvs2, y ∈ [c7sw] → y = JVal.obj kvs2 →
      (swKeyOf y ∈ c7links.map Prod.fst ↔
        pyTruthy (jvGetD kvs2 "refines" .null) = true ∧
        pySetMem [JVal.str "R"] (jvGetD kvs2 "refines" .null) = true)) ∧
    (∀ hl kvsh, hl ∈ [c7hl] → hl = JVal.obj kvsh →
      ∀ ref, backwardRefiners [c7sw] (objIdOf hl) = some ref →
        (∀ i, i ∈ ref ↔ ∃ y kvss, y ∈ [c7sw] ∧ y = JVal.obj kvss ∧
          pyEq (jvGetD kvss "refines" .null) (objIdOf hl) = true ∧
          dictGet? kvss "id" = some i) ∧
        (ref = [] → linkGet? c7links (hlKeyOf hl) = none) ∧
        (ref ≠ [] → linkGet? c7links (hlKeyOf hl) =
          some (LinkVal.many (ref.map (fun i => "software.html#" ++ pyStr i)))))) :=
  ⟨⟨rfl, rfl, List.nodup_singleton _, List.nodup_singleton _⟩,
    c7_link_symmetry_for_truthy_refines [c7hl] [c7sw] [JVal.str "R"] c7links []
      rfl rfl (List.nodup_singleton _) (List.nodup_singleton _)⟩


mutual

/-- `allocGraph` only appends to the store. -/
theorem allocGraph_append (σ : Store) (v : JVal) :
    ∃ Δ, (allocGraph σ v).1 = σ ++ Δ := by
  cases v with
  | null => exact ⟨[.nnull], rfl⟩
  | bool b => exact ⟨[.nbool b], rfl⟩
  | num n => exact ⟨[.nnum n], rfl⟩
  | str s => exact ⟨[.nstr s], rfl⟩
  | arr xs =>
      obtain ⟨Δ1, h1⟩ := allocGraphList_append σ xs
      simp only [allocGraph]
      rcases hp : allocGraphList σ xs with ⟨σ2, as⟩
      rw [hp] at h1
      refine ⟨Δ1 ++ [.nlist as], ?_⟩
      simp only [allocN]
      rw [show ((σ2, as) : Store × List Nat).1 = σ2 from rfl] at h1
      rw [h1, List.append_assoc]

  | obj kvs =>
      obtain ⟨Δ1, h1⟩ := allocGraphObj_append σ kvs
      simp only [allocGraph]
      rcases hp : allocGraphObj σ kvs with ⟨σ2, fs⟩
      rw [hp] at h1
      refine ⟨Δ1 ++ [.ndict fs], ?_⟩
      simp only [allocN]
      rw [show ((σ2, fs) : Store × List (String × Nat)).1 = σ2 from rfl] at h1
      rw [h1, List.append_assoc]

/-- `allocGraphList` only appends to the store. -/
theorem allocGraphList_append (σ : Store) (xs : List JVal) :
    ∃ Δ, (allocGraphList σ xs).1 = σ ++ Δ := by
  cases xs with
  | nil => exact ⟨[], (List.append_nil σ).symm⟩
  | cons v rest =>
      obtain ⟨Δ1, h1⟩ := allocGraph_append σ v
      simp only [allocGraphList]
      rcases hp : allocGraph σ v with ⟨σ2, a⟩
      rw [hp] at h1
      rw [show ((σ2, a) : Store × Nat).1 = σ2 from rfl] at h1
      obtain ⟨Δ2, h2⟩ := allocGraphList_append σ2 rest
      rcases hq : allocGraphList σ2 rest with ⟨σ3, as⟩
      rw [hq] at h2
      rw [show ((σ3, as) : Store × List Nat).1 = σ3 from rfl] at h2
      refine ⟨Δ1 ++ Δ2, ?_⟩
      show σ3 = σ ++ (Δ1 ++ Δ2)
      rw [h2, h1, List.append_assoc]

/-- `allocGraphObj` only appends to the store. -/
theorem allocGraphObj_append (σ : Store) (kvs : List (String × JVal)) :
    ∃ Δ, (allocGraphObj σ kvs).1 = σ ++ Δ := by
  cases kvs with
  | nil => exact ⟨[], (List.append_nil σ).symm⟩
  | cons kv rest =>
      obtain ⟨Δ1, h1⟩ := allocGraph_append σ kv.2
      simp only [allocGraphObj]
      rcases hp : allocGraph σ kv.2 with ⟨σ2, a⟩
      rw [hp] at h1
      rw [show ((σ2, a) : Store × Nat).1 = σ2 from rfl] at h1
      obtain ⟨Δ2, h2⟩ := allocGraphObj_append σ2 rest
      rcases hq : allocGraphObj σ2 rest with ⟨σ3, fs⟩
      rw [hq] at h2
      rw [show ((σ3, fs) : Store × List (String × Nat)).1 = σ3 from rfl] at h2
      refine ⟨Δ1 ++ Δ2, ?_⟩
      show σ3 = σ ++ (Δ1 ++ Δ2)
      rw [h2, h1, List.append_assoc]

end


/-- A field write into the payload copy at `p` leaves every other
    in-bounds address unchanged and never shrinks the store. -/
theorem setPayloadField_frame (σ : Store) (p : Nat) (k : String) (d : JVal)
    (f : JVal → Option JVal) (σ2 : Store)
    (h : setPayloadField σ p k d f = some σ2) :
    σ.length ≤ σ2.length ∧ ∀ i, i < σ.length → p ≠ i → σ2.get? i = σ.get? i := by
  unfold setPayloadField at h
  rw [optBind_eq_some] at h
  obtain ⟨kvs, hkvs, h⟩ := h
  rw [optBind_eq_some] at h
  obtain ⟨raw, hraw, h⟩ := h
  rw [optBind_eq_some] at h
  obtain ⟨v, hv, h⟩ := h
  obtain ⟨Δ, hΔ⟩ := allocGraph_append σ v
  rcases hp2 : allocGraph σ v with ⟨σa, av⟩
  rw [hp2] at h hΔ
  have hσa : σa = σ ++ Δ := hΔ
  unfold dictWrite at h
  rw [optBind_eq_some] at h
  obtain ⟨kvs2, hkvs2, h⟩ := h
  have hσ2 : σ2 = σa.set p (.ndict (dictAddrSet kvs2 k av)) := (Option.some.inj h).symm
  subst hσ2
  constructor
  · rw [List.length_set, hσa, List.length_append]
    exact Nat.le_add_right _ _
  · intro i hi hip
    rw [List.get?_set_ne _ _ hip, hσa]
    exact List.get?_append hi

/-- Element reads through an unchanged region of the store agree. -/
theorem mapM_graphVal_congr (σf σ0 : Store) (n : Nat)
    (ih : ∀ i, i < σ0.length → graphVal σf n i = graphVal σ0 n i) :
    ∀ es : List Nat, (∀ a ∈ es, a < σ0.length) →
      es.mapM (graphVal σf n) = es.mapM (graphVal σ0 n) := by
  intro es
  induction es with
  | nil => intro _; rfl
  | cons a rest ihes =>
      intro hes
      rw [List.mapM_cons, List.mapM_cons, ih a (hes a (List.mem_cons_self a rest)),
        ihes (fun x hx => hes x (List.mem_cons_of_mem a hx))]

/-- Field reads through an unchanged region of the store agree. -/
theorem mapM_graphValObj_congr (σf σ0 : Store) (n : Nat)
    (ih : ∀ i, i < σ0.length → graphVal σf n i = graphVal σ0 n i) :
    ∀ kvs : List (String × Nat), (∀ kv ∈ kvs, kv.2 < σ0.length) →
      kvs.mapM (fun kv => (graphVal σf n kv.2).map (fun v => (kv.1, v))) =
      kvs.mapM (fun kv => (graphVal σ0 n kv.2).map (fun v => (kv.1, v))) := by
  intro kvs
  induction kvs with
  | nil => intro _; rfl
  | cons kv rest ihkv =>
      intro hkv
      rw [List.mapM_cons, List.mapM_cons, ih kv.2 (hkv kv (List.mem_cons_self kv rest)),
        ihkv (fun x hx => hkv x (List.mem_cons_of_mem kv hx))]

/-- When an in-bounds region of a well-formed store is unchanged, every
    document value read from that region is unchanged. -/
theorem graphVal_congr (σ0 σf : Store)
    (hg : ∀ i, i < σ0.length → σf.get? i = σ0.get? i)
    (hwf : storeWF σ0) :
    ∀ fuel i, i < σ0.length → graphVal σf fuel i = graphVal σ0 fuel i := by
  intro fuel
  induction fuel with
  | zero => intro i _; rfl
  | succ n ih =>
      intro i hi
      simp only [graphVal]
      rw [hg i hi]
      cases hσ : σ0.get? i with
      | none => rfl
      | some node =>
          cases node with
          | nnull => rfl
          | nbool b => rfl
          | nnum m => rfl
          | nstr s => rfl
          | nlist es =>
              have hes : ∀ a ∈ es, a < σ0.length := by
                intro a ha
                exact hwf _ (List.get?_mem hσ) a ha
              dsimp only
              rw [mapM_graphVal_congr σf σ0 n ih es hes]
          | ndict kvs =>
              have hkv : ∀ kv ∈ kvs, kv.2 < σ0.length := by
                intro kv hk
                exact hwf _ (List.get?_mem hσ) kv.2
                  (List.mem_map_of_mem Prod.snd hk)
              dsimp only
              rw [mapM_graphValObj_congr σf σ0 n ih kvs hkv]


/-- C9: `normalize_configuration_payload` never mutates its input document.
    In the store model, the run leaves every address of the input store
    unchanged (it only appends fresh nodes and writes into the fresh payload
    copy), so the raw mapping and every list and mapping nested inside it
    read back unchanged after normalization. -/
theorem c9_normalize_payload_never_mutates_input
    (σ0 : Store) (a : Nat) (σf : Store) (r : Nat)
    (h : sNormalizePayload σ0 a = some (σf, r)) :
    σ0.length ≤ σf.length ∧
    (∀ i, i < σ0.length → σf.get? i = σ0.get? i) ∧
    (storeWF σ0 → ∀ fuel i, i < σ0.length →
      graphVal σf fuel i = graphVal σ0 fuel i) := by
  unfold sNormalizePayload at h
  rw [optBind_eq_some] at h
  obtain ⟨kvs0, hk0, h⟩ := h
  simp only [allocN] at h
  rw [optBind_eq_some] at h
  obtain ⟨σ2, h2, h⟩ := h
  rw [optBind_eq_some] at h
  obtain ⟨kvsA, hkA, h⟩ := h
  rw [optBind_eq_some] at h
  obtain ⟨idVal, hidv, h⟩ := h
  rw [optBind_eq_some] at h
  obtain ⟨σ3, h3, h⟩ := h
  rw [optBind_eq_some] at h
  obtain ⟨σ4, h4, h⟩ := h
  rw [optBind_eq_some] at h
  obtain ⟨σ5, h5, h⟩ := h
  rw [optBind_eq_some] at h
  obtain ⟨σ6, h6, h⟩ := h
  rw [optBind_eq_some] at h
  obtain ⟨σ7, h7, h⟩ := h
  rw [optBind_eq_some] at h
  obtain ⟨σ8, h8, h⟩ := h
  have hfin := Prod.mk.injEq _ _ _ _ ▸ Option.some.inj h
  rw [← hfin.1]
  obtain ⟨L2, G2⟩ := setPayloadField_frame _ _ _ _ _ _ h2
  obtain ⟨L3, G3⟩ := setPayloadField_frame _ _ _ _ _ _ h3
  obtain ⟨L4, G4⟩ := setPayloadField_frame _ _ _ _ _ _ h4
  obtain ⟨L5, G5⟩ := setPayloadField_frame _ _ _ _ _ _ h5
  obtain ⟨L6, G6⟩ := setPayloadField_frame _ _ _ _ _ _ h6
  obtain ⟨L7, G7⟩ := setPayloadField_frame _ _ _ _ _ _ h7
  obtain ⟨L8, G8⟩ := setPayloadField_frame _ _ _ _ _ _ h8
  have L1 : σ0.length ≤ (σ0 ++ [Node.ndict kvs0]).length := by
    rw [List.length_append]
    exact Nat.le_add_right _ _
  have hget : ∀ i, i < σ0.length → σ8.get? i = σ0.get? i := by
    intro i hi
    have hne : σ0.length ≠ i := ne_of_gt hi
    have hiA : i < (σ0 ++ [Node.ndict kvs0]).length := lt_of_lt_of_le hi L1
    have hi2 : i < σ2.length := lt_of_lt_of_le hiA L2
    have hi3 : i < σ3.length := lt_of_lt_of_le hi2 L3
    have hi4 : i < σ4.length := lt_of_lt_of_le hi3 L4
    have hi5 : i < σ5.length := lt_of_lt_of_le hi4 L5
    have hi6 : i < σ6.length := lt_of_lt_of_le hi5 L6
    have hi7 : i < σ7.length := lt_of_lt_of_le hi6 L7
    rw [G8 i hi7 hne, G7 i hi6 hne, G6 i hi5 hne, G5 i hi4 hne, G4 i hi3 hne,
      G3 i hi2 hne, G2 i hiA hne]
    exact List.get?_append hi
  refine ⟨le_trans L1 (le_trans L2 (le_trans L3 (le_trans L4 (le_trans L5
    (le_trans L6 (le_trans L7 L8)))))), hget, ?_⟩
  intro hwf
  exact graphVal_congr σ0 σ8 hget hwf


set_option maxRecDepth 8000 in
/-- Witness for C9 at the two-node store holding `{"id": "a"}`. -/
theorem c9_witness :
    (sNormalizePayload [Node.nstr "a", Node.ndict [("id", 0)]] 1 =
      some (c9resultStore, 2) ∧
      storeWF [Node.nstr "a", Node.ndict [("id", 0)]]) ∧
    (([Node.nstr "a", Node.ndict [("id", 0)]] : Store).length ≤ c9resultStore.length ∧
      (∀ i, i < ([Node.nstr "a", Node.ndict [("id", 0)]] : Store).length →
        c9resultStore.get? i = ([Node.nstr "a", Node.ndict [("id", 0)]] : Store).get? i) ∧
      (storeWF [Node.nstr "a", Node.ndict [("id", 0)]] → ∀ fuel i,
        i < ([Node.nstr "a", Node.ndict [("id", 0)]] : Store).length →
        graphVal c9resultStore fuel i =
          graphVal [Node.nstr "a", Node.ndict [("id", 0)]] fuel i)) :=
  ⟨⟨rfl, by unfold storeWF; decide⟩,
    c9_normalize_payload_never_mutates_input [Node.nstr "a", Node.ndict [("id", 0)]] 1
      c9resultStore 2 rfl⟩


end AICoder
